import Mathlib

/-!
Verification of the lexical front end and symbol-management core of the
AMPL compiler: the generic open-chaining hash table (hashtable.c), the
two-level scoped symbol table built on it (symboltable.c), and the
hand-written scanner (scanner.c).  Each definition is a shallow embedding
of the corresponding C function; machine integers are modelled as Nat/Int
with explicit wrap-around where the C arithmetic wraps.
-/

/-- Result code of the hash-table insert operation.  Modelled from the spec:
hashtable.h is not among the sources; the spec states that insert returns
success, a failure code for null arguments or allocation failure, and a
distinguished already-exists code distinct from both (EXIT_SUCCESS and
EXIT_FAILURE are the standard C codes 0 and 1, HASH_TABLE_KEY_VALUE_PAIR_EXISTS
is some further value). -/
inductive InsertResult where
  | success : InsertResult
  | failure : InsertResult
  | keyExists : InsertResult
deriving DecidableEq

/-- Model of struct hashtab from hashtable.c: the bucket array is a function
from bucket index to collision chain (indices at or above size are never
touched by the operations), together with the current size, the entry count,
the maximum load factor, the delta index, and the two caller-supplied
functions.  The comparison function returns an Int in strcmp style; the table
only ever tests it against zero. -/
structure HashTab (α β : Type) where
  table : Nat → List (α × β)
  size : Nat
  num_entries : Nat
  max_loadfactor : ℚ
  idx : Nat
  hash : α → Nat → Nat
  cmp : α → α → Int

/-- Array of differences between a power of two and the largest prime less
than that power of two, from hashtable.c (32 entries). -/
def delta : List Nat :=
  [0, 0, 1, 1, 3, 1, 3, 1, 5, 3, 3, 9, 3, 1, 3,
   19, 15, 1, 5, 1, 3, 9, 3, 15, 3, 39, 5, 39, 57, 3, 35, 1]

/-- ht_init from hashtable.c: size 13, no entries, delta index 4, all buckets
empty (talloc fills the fresh array with NULL). -/
def ht_init (loadfactor : ℚ) (hash : α → Nat → Nat) (cmp : α → α → Int) :
    HashTab α β :=
  { table := fun _ => [], size := 13, num_entries := 0,
    max_loadfactor := loadfactor, idx := 4, hash := hash, cmp := cmp }

/-- Loop of getsize from hashtable.c: starting from number = 2, pow = 1, keep
doubling number (and incrementing pow) while it is below the current size.
The fuel argument makes the recursion structural; it is always supplied as the
current size, which bounds the number of doublings. -/
def gsLoop : Nat → Nat → Nat → Nat → Nat × Nat
  | 0, _, number, pow => (number, pow)
  | fuel + 1, size_now, number, pow =>
    if number < size_now then gsLoop fuel size_now (number * 2) (pow + 1)
    else (number, pow)

/-- Core of getsize from hashtable.c on the stored size: after the doubling
loop, pow is incremented once more and the result is number * 2 - delta[pow].
A delta index beyond the 32 stored entries reads 0 in this model; the
theorems about growth stay inside the range where the C int arithmetic and
the delta access are well defined. -/
def getsizeN (size_now : Nat) : Nat :=
  let np := gsLoop size_now size_now 2 1
  np.1 * 2 - delta.getD (np.2 + 1) 0

/-- getsize from hashtable.c; it reads only the size field of the table. -/
def getsize (ht : HashTab α β) : Nat := getsizeN ht.size

/-- All entries of the table, bucket 0 first, each chain front to back.  This
is exactly the traversal order of the rehash loop in hashtable.c. -/
def allEntries (ht : HashTab α β) : List (α × β) :=
  (List.range ht.size).flatMap fun i => ht.table i

/-- rehash from hashtable.c: compute the grown capacity, then walk the old
buckets in index order, each chain front to back, pushing every entry onto
the front of its bucket in the new array.  The chain of new bucket i is
therefore the reverse of the traversal-ordered old entries that hash to i
under the new size.  num_entries is not touched. -/
def rehash (ht : HashTab α β) : HashTab α β :=
  let updated_size := getsize ht
  let all := allEntries ht
  { ht with
    size := updated_size,
    table := fun i => (all.filter fun p => ht.hash p.1 updated_size = i).reverse }

/-- ht_insert from hashtable.c, lines 93-127 (the null checks of lines 89-91
live in ht_insertChecked; entry allocation is assumed to succeed).  The bucket
is computed, the load-factor check possibly grows the table and recomputes the
bucket under the new size, the bucket chain is scanned for an equal key, and
otherwise the new entry is pushed onto the front of the chain and the entry
count incremented. -/
def ht_insert (ht : HashTab α β) (key : α) (value : β) :
    InsertResult × HashTab α β :=
  let hash_val := ht.hash key ht.size
  let grow := ((ht.num_entries + 1 : ℚ) / (ht.size : ℚ)) > ht.max_loadfactor
  let ht1 := if grow then rehash ht else ht
  let hash_val := if grow then ht1.hash key ht1.size else hash_val
  if (ht1.table hash_val).any (fun p => ht1.cmp key p.1 == 0) then
    (InsertResult.keyExists, ht1)
  else
    (InsertResult.success,
     { ht1 with
       table := fun i =>
         if i = hash_val then (key, value) :: ht1.table hash_val
         else ht1.table i,
       num_entries := ht1.num_entries + 1 })

/-- Null-checking wrapper of ht_insert, hashtable.c lines 89-91: a null table,
key or value is rejected with EXIT_FAILURE before anything else happens. -/
def ht_insertChecked (ht : Option (HashTab α β)) (key : Option α)
    (value : Option β) : InsertResult × Option (HashTab α β) :=
  match ht, key, value with
  | some h, some k, some v =>
    let r := ht_insert h k v
    (r.1, some r.2)
  | h, _, _ => (InsertResult.failure, h)

/-- ht_search from hashtable.c: scan the chain of the bucket the key hashes
to; the first entry whose key compares equal wins. -/
def ht_search (ht : HashTab α β) (key : α) : Option β :=
  ((ht.table (ht.hash key ht.size)).find? fun p => ht.cmp key p.1 == 0).map
    Prod.snd

/-- Null-checking wrapper of ht_search (a null table yields NULL). -/
def ht_searchChecked (ht : Option (HashTab α β)) (key : α) : Option β :=
  match ht with
  | none => none
  | some h => ht_search h key

/-- Contract on the caller-supplied functions (spec section 4.1): the hash
yields a valid bucket index for every positive capacity, and the zero test of
the comparator is key equality. -/
def GoodFns (ht : HashTab α β) : Prop :=
  (∀ k s, 0 < s → ht.hash k s < s) ∧ (∀ a b, ht.cmp a b = 0 ↔ a = b)

/-- Structural invariant of the table: every entry sits in the bucket its key
hashes to under the current size, and no key occurs twice in one chain. -/
def WF (ht : HashTab α β) : Prop :=
  (∀ i < ht.size, ∀ p ∈ ht.table i, ht.hash p.1 ht.size = i) ∧
  (∀ i < ht.size, ((ht.table i).map Prod.fst).Nodup)

section HashTableLemmas

variable {α β : Type} {ht : HashTab α β}

theorem mem_allEntries {q : α × β} :
    q ∈ allEntries ht ↔ ∃ i < ht.size, q ∈ ht.table i := by
  simp [allEntries]

theorem WF.unique (hWF : WF ht) {i j : Nat} {p q : α × β}
    (hi : i < ht.size) (hj : j < ht.size)
    (hp : p ∈ ht.table i) (hq : q ∈ ht.table j) (hk : p.1 = q.1) :
    p = q := by
  have h1 := hWF.1 i hi p hp
  have h2 := hWF.1 j hj q hq
  rw [hk] at h1
  have hij : i = j := by omega
  subst hij
  exact List.inj_on_of_nodup_map (hWF.2 i hi) hp hq hk

theorem mem_bucket_iff (hG : GoodFns ht) (hWF : WF ht) (hpos : 0 < ht.size)
    {k : α} {v : β} :
    (k, v) ∈ ht.table (ht.hash k ht.size) ↔ (k, v) ∈ allEntries ht := by
  rw [mem_allEntries]
  constructor
  · intro h
    exact ⟨ht.hash k ht.size, hG.1 k ht.size hpos, h⟩
  · rintro ⟨i, hi, h⟩
    have := hWF.1 i hi (k, v) h
    simpa [this] using h

theorem find?_cmp_none {cmp : α → α → Int}
    (hc : ∀ a b, cmp a b = 0 ↔ a = b) (k : α) (l : List (α × β)) :
    (l.find? fun p => cmp k p.1 == 0) = none ↔ ∀ v, (k, v) ∉ l := by
  rw [List.find?_eq_none]
  constructor
  · intro h v hv
    have := h (k, v) hv
    simp only [beq_iff_eq] at this
    exact this ((hc k k).mpr rfl)
  · intro h p hp hpred
    simp only [beq_iff_eq] at hpred
    have hk : k = p.1 := (hc k p.1).mp hpred
    exact h p.2 (by rw [hk]; exact hp)

theorem find?_cmp_some {cmp : α → α → Int}
    (hc : ∀ a b, cmp a b = 0 ↔ a = b) {k : α} {l : List (α × β)} {q : α × β}
    (h : (l.find? fun p => cmp k p.1 == 0) = some q) : q ∈ l ∧ q.1 = k := by
  have h1 := List.find?_some h
  have h2 := List.mem_of_find?_eq_some h
  simp only [beq_iff_eq] at h1
  exact ⟨h2, ((hc k q.1).mp h1).symm⟩

theorem find?_cmp_isSome {cmp : α → α → Int}
    (hc : ∀ a b, cmp a b = 0 ↔ a = b) {k : α} {v : β} {l : List (α × β)}
    (hv : (k, v) ∈ l) : ((l.find? fun p => cmp k p.1 == 0)).isSome := by
  rw [List.find?_isSome]
  exact ⟨(k, v), hv, by simp [(hc k k).mpr rfl]⟩

theorem ht_search_some_iff (hG : GoodFns ht) (hWF : WF ht) (hpos : 0 < ht.size)
    {k : α} {v : β} :
    ht_search ht k = some v ↔ (k, v) ∈ allEntries ht := by
  constructor
  · intro h
    unfold ht_search at h
    obtain ⟨q, hq, hqv⟩ := Option.map_eq_some'.mp h
    obtain ⟨hqmem, hqk⟩ := find?_cmp_some hG.2 hq
    have hq' : q = (k, v) := by
      obtain ⟨q1, q2⟩ := q
      simp only at hqk hqv
      rw [hqk, hqv]
    rw [hq'] at hqmem
    exact (mem_bucket_iff hG hWF hpos).mp hqmem
  · intro h
    have hmem := (mem_bucket_iff hG hWF hpos).mpr h
    have hsome := find?_cmp_isSome hG.2 (v := v) (l := ht.table (ht.hash k ht.size)) hmem
    obtain ⟨q, hq⟩ := Option.isSome_iff_exists.mp hsome
    obtain ⟨hqmem, hqk⟩ := find?_cmp_some hG.2 hq
    have hb : ht.hash k ht.size < ht.size := hG.1 k ht.size hpos
    have : q = (k, v) :=
      hWF.unique hb hb hqmem hmem (by rw [hqk])
    unfold ht_search
    rw [hq, this]
    rfl

theorem ht_search_none_iff (hG : GoodFns ht) (hWF : WF ht) (hpos : 0 < ht.size)
    {k : α} :
    ht_search ht k = none ↔ ∀ v, (k, v) ∉ allEntries ht := by
  unfold ht_search
  rw [Option.map_eq_none', find?_cmp_none hG.2]
  constructor
  · intro h v hv
    exact h v ((mem_bucket_iff hG hWF hpos).mpr hv)
  · intro h v hv
    exact h v ((mem_bucket_iff hG hWF hpos).mp hv)

end HashTableLemmas

section GrowthLemmas

variable {α β : Type} {ht : HashTab α β}

theorem gsLoop_pow : ∀ (fuel size_now number pow : Nat), number = 2 ^ pow →
    ∃ p, gsLoop fuel size_now number pow = (2 ^ p, p) ∧ pow ≤ p := by
  intro fuel
  induction fuel with
  | zero =>
    intro sn n p h
    exact ⟨p, by simp [gsLoop, h], le_refl p⟩
  | succ f ih =>
    intro sn n p h
    subst h
    by_cases hlt : 2 ^ p < sn
    · obtain ⟨p', hp', hle⟩ := ih sn (2 ^ p * 2) (p + 1) (by rw [pow_succ])
      exact ⟨p', by simp [gsLoop, hlt, hp'], by omega⟩
    · exact ⟨p, by simp [gsLoop, hlt], le_refl p⟩

theorem delta_getD_lt_32 : ∀ j < 32, delta.getD j 0 < 2 ^ j := by decide

theorem delta_getD_lt (j : Nat) : delta.getD j 0 < 2 ^ j := by
  by_cases hj : j < 32
  · exact delta_getD_lt_32 j hj
  · rw [List.getD_eq_default]
    · exact Nat.two_pow_pos j
    · show delta.length ≤ j
      simp only [delta, List.length]
      omega

theorem getsizeN_pos (s : Nat) : 0 < getsizeN s := by
  unfold getsizeN
  obtain ⟨p, hp, hle⟩ := gsLoop_pow s s 2 1 (by norm_num)
  rw [hp]
  simp only
  have h1 : delta.getD (p + 1) 0 < 2 ^ (p + 1) := delta_getD_lt (p + 1)
  have h2 : (2 : Nat) ^ p * 2 = 2 ^ (p + 1) := (pow_succ 2 p).symm
  omega

theorem rehash_size : (rehash ht).size = getsize ht := rfl

theorem rehash_num_entries : (rehash ht).num_entries = ht.num_entries := rfl

theorem rehash_hash : (rehash ht).hash = ht.hash := rfl

theorem rehash_cmp : (rehash ht).cmp = ht.cmp := rfl

theorem rehash_ml : (rehash ht).max_loadfactor = ht.max_loadfactor := rfl

theorem goodFns_congr {ht' : HashTab α β} (hh : ht'.hash = ht.hash)
    (hc : ht'.cmp = ht.cmp) (hG : GoodFns ht) : GoodFns ht' := by
  constructor
  · rw [hh]; exact hG.1
  · rw [hc]; exact hG.2

theorem goodFns_rehash (hG : GoodFns ht) : GoodFns (rehash ht) :=
  goodFns_congr rehash_hash rehash_cmp hG

theorem mem_allEntries_rehash (hG : GoodFns ht) {q : α × β} :
    q ∈ allEntries (rehash ht) ↔ q ∈ allEntries ht := by
  constructor
  · intro h
    rw [mem_allEntries] at h
    obtain ⟨i, hi, hmem⟩ := h
    simp only [rehash] at hmem
    rw [List.mem_reverse, List.mem_filter] at hmem
    exact hmem.1
  · intro h
    rw [mem_allEntries]
    refine ⟨ht.hash q.1 (getsize ht), ?_, ?_⟩
    · rw [rehash_size]
      exact hG.1 q.1 (getsize ht) (getsizeN_pos ht.size)
    · simp only [rehash]
      rw [List.mem_reverse, List.mem_filter]
      exact ⟨h, by simp⟩

theorem allEntries_keys_nodup (hWF : WF ht) :
    ((allEntries ht).map Prod.fst).Nodup := by
  unfold allEntries
  rw [List.map_flatMap, List.nodup_flatMap]
  constructor
  · intro i hi
    rw [List.mem_range] at hi
    exact hWF.2 i hi
  · rw [List.pairwise_iff_getElem]
    intro a b ha hb hab
    simp only [List.length_range] at ha hb
    simp only [List.getElem_range]
    intro k hk1 hk2
    rw [List.mem_map] at hk1 hk2
    obtain ⟨p, hp, hpk⟩ := hk1
    obtain ⟨q, hq, hqk⟩ := hk2
    have h1 := hWF.1 a ha p hp
    have h2 := hWF.1 b hb q hq
    rw [hpk] at h1
    rw [hqk] at h2
    omega

theorem WF_rehash (hG : GoodFns ht) (hWF : WF ht) : WF (rehash ht) := by
  constructor
  · intro i hi p hp
    simp only [rehash] at hp ⊢
    rw [List.mem_reverse, List.mem_filter] at hp
    have := hp.2
    simpa using this
  · intro i hi
    simp only [rehash]
    rw [List.map_reverse, List.nodup_reverse]
    have hsub : List.Sublist
        (((allEntries ht).filter
          (fun p => decide (ht.hash p.1 (getsize ht) = i))).map Prod.fst)
        ((allEntries ht).map Prod.fst) :=
      List.Sublist.map Prod.fst (List.filter_sublist _)
    exact List.Nodup.sublist hsub (allEntries_keys_nodup hWF)

theorem ht_search_rehash (hG : GoodFns ht) (hWF : WF ht) (hpos : 0 < ht.size)
    (k : α) : ht_search (rehash ht) k = ht_search ht k := by
  have hG' := goodFns_rehash hG
  have hWF' := WF_rehash hG hWF
  have hpos' : 0 < (rehash ht).size := by
    rw [rehash_size]; exact getsizeN_pos ht.size
  cases hsk : ht_search ht k with
  | some v =>
    rw [ht_search_some_iff hG hWF hpos] at hsk
    rw [ht_search_some_iff hG' hWF' hpos', mem_allEntries_rehash hG]
    exact hsk
  | none =>
    rw [ht_search_none_iff hG hWF hpos] at hsk
    rw [ht_search_none_iff hG' hWF' hpos']
    intro v hv
    exact hsk v ((mem_allEntries_rehash hG).mp hv)

end GrowthLemmas

section InsertLemmas

variable {α β : Type} {ht : HashTab α β}

/-- The growth condition tested by ht_insert, as the C float comparison
(n + 1) / size > max_loadfactor modelled over the rationals. -/
def growCond (ht : HashTab α β) : Prop :=
  ((ht.num_entries + 1 : ℚ) / (ht.size : ℚ)) > ht.max_loadfactor

instance : Decidable (growCond ht) := by
  unfold growCond
  infer_instance

theorem ht_insert_eq (ht : HashTab α β) (k : α) (v : β) :
    ht_insert ht k v =
      (let ht1 := if growCond ht then rehash ht else ht
       let hv := ht1.hash k ht1.size
       if (ht1.table hv).any (fun p => ht1.cmp k p.1 == 0) then
         (InsertResult.keyExists, ht1)
       else
         (InsertResult.success,
          { ht1 with
            table := fun i =>
              if i = hv then (k, v) :: ht1.table hv else ht1.table i,
            num_entries := ht1.num_entries + 1 })) := by
  unfold ht_insert growCond
  by_cases h : ((ht.num_entries + 1 : ℚ) / (ht.size : ℚ)) > ht.max_loadfactor
  · simp only [h, if_true]
  · simp only [h, if_false]

theorem ht_insert_size (k : α) (v : β) :
    (ht_insert ht k v).2.size =
      if growCond ht then getsize ht else ht.size := by
  rw [ht_insert_eq]
  by_cases h : growCond ht <;> simp only [h, if_true, if_false] <;> split <;> rfl

theorem ht_insert_hash (k : α) (v : β) :
    (ht_insert ht k v).2.hash = ht.hash := by
  rw [ht_insert_eq]
  by_cases h : growCond ht <;> simp only [h, if_true, if_false] <;> split <;> rfl

theorem ht_insert_cmp (k : α) (v : β) :
    (ht_insert ht k v).2.cmp = ht.cmp := by
  rw [ht_insert_eq]
  by_cases h : growCond ht <;> simp only [h, if_true, if_false] <;> split <;> rfl

theorem ht_insert_ml (k : α) (v : β) :
    (ht_insert ht k v).2.max_loadfactor = ht.max_loadfactor := by
  rw [ht_insert_eq]
  by_cases h : growCond ht <;> simp only [h, if_true, if_false] <;> split <;> rfl

theorem ht_insert_num_entries (k : α) (v : β) :
    (ht_insert ht k v).2.num_entries =
      if (ht_insert ht k v).1 = InsertResult.success then ht.num_entries + 1
      else ht.num_entries := by
  rw [ht_insert_eq]
  by_cases h : growCond ht <;> simp only [h, if_true, if_false] <;> split <;>
    simp [rehash_num_entries]

theorem ht_insert_result (k : α) (v : β) :
    (ht_insert ht k v).1 = InsertResult.success ∨
    (ht_insert ht k v).1 = InsertResult.keyExists := by
  rw [ht_insert_eq]
  by_cases h : growCond ht <;> simp only [h, if_true, if_false] <;> split <;>
    simp

theorem ht_insert_goodFns (hG : GoodFns ht) (k : α) (v : β) :
    GoodFns (ht_insert ht k v).2 :=
  goodFns_congr (ht_insert_hash k v) (ht_insert_cmp k v) hG

theorem ht_insert_size_pos (hpos : 0 < ht.size) (k : α) (v : β) :
    0 < (ht_insert ht k v).2.size := by
  rw [ht_insert_size]
  split
  · exact getsizeN_pos ht.size
  · exact hpos

/-- Stage one of ht_insert: the table after the conditional load-factor
growth of hashtable.c lines 104-111. -/
def growTable (ht : HashTab α β) : HashTab α β :=
  if growCond ht then rehash ht else ht

/-- Stage two of ht_insert: pushing the new entry onto the front of its
bucket chain and incrementing the entry count, hashtable.c lines 123-125. -/
def bucketInsert (T : HashTab α β) (k : α) (v : β) : HashTab α β :=
  { T with
    table := fun i =>
      if i = T.hash k T.size then (k, v) :: T.table (T.hash k T.size)
      else T.table i,
    num_entries := T.num_entries + 1 }

theorem ht_insert_eq_stages (ht : HashTab α β) (k : α) (v : β) :
    ht_insert ht k v =
      if ((growTable ht).table ((growTable ht).hash k (growTable ht).size)).any
          (fun p => (growTable ht).cmp k p.1 == 0) then
        (InsertResult.keyExists, growTable ht)
      else (InsertResult.success, bucketInsert (growTable ht) k v) := by
  rw [ht_insert_eq]
  rfl

theorem growTable_goodFns (hG : GoodFns ht) : GoodFns (growTable ht) := by
  unfold growTable
  split
  · exact goodFns_rehash hG
  · exact hG

theorem growTable_WF (hG : GoodFns ht) (hWF : WF ht) : WF (growTable ht) := by
  unfold growTable
  split
  · exact WF_rehash hG hWF
  · exact hWF

theorem growTable_pos (hpos : 0 < ht.size) : 0 < (growTable ht).size := by
  unfold growTable
  split
  · rw [rehash_size]; exact getsizeN_pos ht.size
  · exact hpos

theorem growTable_search (hG : GoodFns ht) (hWF : WF ht) (hpos : 0 < ht.size)
    (k : α) : ht_search (growTable ht) k = ht_search ht k := by
  unfold growTable
  split
  · exact ht_search_rehash hG hWF hpos k
  · rfl

theorem growTable_mem (hG : GoodFns ht) {q : α × β} :
    q ∈ allEntries (growTable ht) ↔ q ∈ allEntries ht := by
  unfold growTable
  split
  · exact mem_allEntries_rehash hG
  · exact Iff.rfl

theorem growTable_num_entries : (growTable ht).num_entries = ht.num_entries := by
  unfold growTable
  split <;> rfl

theorem growTable_hash : (growTable ht).hash = ht.hash := by
  unfold growTable
  split <;> rfl

theorem growTable_cmp : (growTable ht).cmp = ht.cmp := by
  unfold growTable
  split <;> rfl

theorem bucket_any_false_iff {T : HashTab α β} (hc : ∀ a b, T.cmp a b = 0 ↔ a = b)
    (k : α) :
    ((T.table (T.hash k T.size)).any fun p => T.cmp k p.1 == 0) = false ↔
      ht_search T k = none := by
  unfold ht_search
  rw [Option.map_eq_none', List.any_eq_false, find?_cmp_none hc]
  constructor
  · intro h v hv
    have := h (k, v) hv
    simp only [beq_iff_eq] at this
    exact this ((hc k k).mpr rfl)
  · intro h p hp hpred
    simp only [beq_iff_eq] at hpred
    have hk : k = p.1 := (hc k p.1).mp hpred
    apply h p.2
    have hpe : (k, p.2) = p := by rw [hk]
    rw [hpe]
    exact hp

theorem bucketInsert_search_self {T : HashTab α β}
    (hc : ∀ a b, T.cmp a b = 0 ↔ a = b) (k : α) (v : β) :
    ht_search (bucketInsert T k v) k = some v := by
  have hcond : (T.cmp k k == 0) = true := by simp [(hc k k).mpr rfl]
  unfold ht_search bucketInsert
  simp [hcond]

theorem bucketInsert_search_other {T : HashTab α β}
    (hc : ∀ a b, T.cmp a b = 0 ↔ a = b) (k : α) (v : β) {k' : α}
    (hne : k' ≠ k) :
    ht_search (bucketInsert T k v) k' = ht_search T k' := by
  have hcond : (T.cmp k' k == 0) = false := by
    rw [beq_eq_false_iff_ne]
    intro h
    exact hne ((hc k' k).mp h)
  unfold ht_search bucketInsert
  by_cases hb : T.hash k' T.size = T.hash k T.size
  · simp [hb, hcond]
  · simp [hb]

theorem bucketInsert_mem {T : HashTab α β} (hG : GoodFns T) (hpos : 0 < T.size)
    (k : α) (v : β) {q : α × β} :
    q ∈ allEntries (bucketInsert T k v) ↔ q = (k, v) ∨ q ∈ allEntries T := by
  unfold bucketInsert
  rw [mem_allEntries, mem_allEntries]
  simp only
  constructor
  · rintro ⟨i, hi, hmem⟩
    by_cases hb : i = T.hash k T.size
    · rw [if_pos hb] at hmem
      rcases List.mem_cons.mp hmem with h | h
      · exact Or.inl h
      · exact Or.inr ⟨T.hash k T.size, hb ▸ hi, h⟩
    · rw [if_neg hb] at hmem
      exact Or.inr ⟨i, hi, hmem⟩
  · rintro (h | ⟨i, hi, hmem⟩)
    · refine ⟨T.hash k T.size, hG.1 k T.size hpos, ?_⟩
      rw [if_pos rfl]
      exact List.mem_cons.mpr (Or.inl h)
    · by_cases hb : i = T.hash k T.size
      · refine ⟨i, hi, ?_⟩
        rw [if_pos hb]
        exact List.mem_cons.mpr (Or.inr (hb ▸ hmem))
      · refine ⟨i, hi, ?_⟩
        rw [if_neg hb]
        exact hmem

theorem bucketInsert_WF {T : HashTab α β} (hG : GoodFns T) (hWF : WF T)
    (hpos : 0 < T.size) (k : α) (v : β)
    (hnone : ht_search T k = none) : WF (bucketInsert T k v) := by
  have hb : T.hash k T.size < T.size := hG.1 k T.size hpos
  have hknotin : k ∉ (T.table (T.hash k T.size)).map Prod.fst := by
    intro hmem
    rw [List.mem_map] at hmem
    obtain ⟨p, hp, hpk⟩ := hmem
    have hpe : (k, p.2) = p := by rw [← hpk]
    rw [ht_search_none_iff hG hWF hpos] at hnone
    apply hnone p.2
    apply (mem_bucket_iff hG hWF hpos).mp
    rw [hpe]
    exact hp
  constructor
  · intro i hi p hp
    simp only [bucketInsert] at hi hp ⊢
    by_cases hbi : i = T.hash k T.size
    · rw [if_pos hbi] at hp
      subst hbi
      rcases List.mem_cons.mp hp with h | h
      · rw [h]
      · exact hWF.1 _ hb p h
    · rw [if_neg hbi] at hp
      exact hWF.1 i hi p hp
  · intro i hi
    simp only [bucketInsert] at hi ⊢
    by_cases hbi : i = T.hash k T.size
    · rw [if_pos hbi, List.map_cons, List.nodup_cons]
      exact ⟨hknotin, hWF.2 _ hb⟩
    · rw [if_neg hbi]
      exact hWF.2 i hi

end InsertLemmas

section InsertBehavior

variable {α β : Type} {ht : HashTab α β}

theorem ht_insert_fresh (hG : GoodFns ht) (hWF : WF ht) (hpos : 0 < ht.size)
    (k : α) (v : β) (hnone : ht_search ht k = none) :
    (ht_insert ht k v).1 = InsertResult.success ∧
    WF (ht_insert ht k v).2 ∧
    ht_search (ht_insert ht k v).2 k = some v ∧
    (∀ k', k' ≠ k → ht_search (ht_insert ht k v).2 k' = ht_search ht k') ∧
    (∀ q, q ∈ allEntries (ht_insert ht k v).2 ↔
      q = (k, v) ∨ q ∈ allEntries ht) := by
  have hG1 := @growTable_goodFns α β ht hG
  have hWF1 := growTable_WF hG hWF
  have hpos1 := @growTable_pos α β ht hpos
  have hs1 := growTable_search hG hWF hpos
  have hnone1 : ht_search (growTable ht) k = none := by rw [hs1]; exact hnone
  have hany := (bucket_any_false_iff hG1.2 k).mpr hnone1
  rw [ht_insert_eq_stages, hany]
  simp only [Bool.false_eq_true, if_false]
  refine ⟨trivial, ?_, ?_, ?_, ?_⟩
  · exact bucketInsert_WF hG1 hWF1 hpos1 k v hnone1
  · exact bucketInsert_search_self hG1.2 k v
  · intro k' hne
    rw [bucketInsert_search_other hG1.2 k v hne, hs1]
  · intro q
    rw [bucketInsert_mem hG1 hpos1, growTable_mem hG]

theorem ht_insert_dup (hG : GoodFns ht) (hWF : WF ht) (hpos : 0 < ht.size)
    (k : α) (v w : β) (hsome : ht_search ht k = some w) :
    (ht_insert ht k v).1 = InsertResult.keyExists ∧
    WF (ht_insert ht k v).2 ∧
    (∀ k', ht_search (ht_insert ht k v).2 k' = ht_search ht k') ∧
    (∀ q, q ∈ allEntries (ht_insert ht k v).2 ↔ q ∈ allEntries ht) := by
  have hG1 := @growTable_goodFns α β ht hG
  have hWF1 := growTable_WF hG hWF
  have hpos1 := @growTable_pos α β ht hpos
  have hs1 := growTable_search hG hWF hpos
  have hsome1 : ht_search (growTable ht) k = some w := by rw [hs1]; exact hsome
  have hany : ((growTable ht).table
      ((growTable ht).hash k (growTable ht).size)).any
      (fun p => (growTable ht).cmp k p.1 == 0) = true := by
    by_contra hx
    have hf : ((growTable ht).table
        ((growTable ht).hash k (growTable ht).size)).any
        (fun p => (growTable ht).cmp k p.1 == 0) = false := by
      cases hb : ((growTable ht).table
          ((growTable ht).hash k (growTable ht).size)).any
          (fun p => (growTable ht).cmp k p.1 == 0)
      · rfl
      · exact absurd hb hx
    rw [bucket_any_false_iff hG1.2 k] at hf
    rw [hf] at hsome1
    exact Option.noConfusion hsome1
  rw [ht_insert_eq_stages, hany]
  simp only [if_true]
  exact ⟨trivial, hWF1, hs1, fun q => growTable_mem hG⟩

end InsertBehavior

section CapacityChain

theorem gsLoop_eq_of : ∀ (fuel sn number pow q : Nat), number = 2 ^ pow →
    pow ≤ q → sn ≤ 2 ^ q → (∀ r, pow ≤ r → r < q → 2 ^ r < sn) →
    q - pow ≤ fuel → gsLoop fuel sn number pow = (2 ^ q, q) := by
  intro fuel
  induction fuel with
  | zero =>
    intro sn n pow q hn hpq hsn hmin hfuel
    have hq : q = pow := by omega
    subst hq
    subst hn
    rfl
  | succ f ih =>
    intro sn n pow q hn hpq hsn hmin hfuel
    subst hn
    by_cases hlt : 2 ^ pow < sn
    · have hpow : pow < q := by
        by_contra hx
        have : q = pow := by omega
        subst this
        omega
      have hstep : (2 : Nat) ^ pow * 2 = 2 ^ (pow + 1) := (pow_succ 2 pow).symm
      have := ih sn (2 ^ pow * 2) (pow + 1) q hstep (by omega) hsn
        (fun r h1 h2 => hmin r (by omega) h2) (by omega)
      simp only [gsLoop, hlt, if_true]
      exact this
    · have hq : q = pow := by
        by_contra hx
        have h1 : pow < q := by omega
        have := hmin pow (le_refl pow) h1
        omega
      subst hq
      simp only [gsLoop, hlt, if_false]

theorem getsizeN_eq (s q : Nat) (h1 : 1 ≤ q) (h2 : s ≤ 2 ^ q)
    (h3 : 2 ^ (q - 1) < s) :
    getsizeN s = 2 ^ (q + 1) - delta.getD (q + 1) 0 := by
  have hq1 : q - 1 < 2 ^ (q - 1) := Nat.lt_two_pow (q - 1)
  have hfuel : q - 1 ≤ s := by omega
  have hmin : ∀ r, 1 ≤ r → r < q → 2 ^ r < s := by
    intro r hr1 hrq
    have : (2 : Nat) ^ r ≤ 2 ^ (q - 1) :=
      Nat.pow_le_pow_right (by norm_num) (by omega)
    omega
  unfold getsizeN
  rw [gsLoop_eq_of s s 2 1 q (by norm_num) h1 h2 hmin (by omega)]
  simp only
  rw [pow_succ]

theorem delta_small : ∀ k, k < 31 → 4 ≤ k → delta.getD k 0 < 2 ^ (k - 1) := by
  decide

theorem delta_small31 : delta.getD 31 0 < 2 ^ 30 := by decide

/-- Capacities the hash table can reach: the initial 13 is 2^4 - delta[4], and
growth maps 2^k - delta[k] to 2^(k+1) - delta[k+1]; index 31 is the last entry
of the delta table (and the last capacity representable in a C int). -/
def ReachableCap (s : Nat) : Prop :=
  ∃ k, 4 ≤ k ∧ k ≤ 31 ∧ s = 2 ^ k - delta.getD k 0

theorem chain_step (k : Nat) (h4 : 4 ≤ k) (h30 : k ≤ 30) :
    getsizeN (2 ^ k - delta.getD k 0) = 2 ^ (k + 1) - delta.getD (k + 1) 0 := by
  have hd : delta.getD k 0 < 2 ^ (k - 1) := delta_small k (by omega) h4
  have hsplit : (2 : Nat) ^ k = 2 ^ (k - 1) * 2 := by
    have hk : k - 1 + 1 = k := by omega
    calc (2 : Nat) ^ k = 2 ^ (k - 1 + 1) := by rw [hk]
    _ = 2 ^ (k - 1) * 2 := pow_succ 2 (k - 1)
  apply getsizeN_eq (2 ^ k - delta.getD k 0) k (by omega)
  · omega
  · omega

theorem chain_ge13 : ∀ k, k < 32 → 4 ≤ k → 13 ≤ 2 ^ k - delta.getD k 0 := by
  decide

theorem chain_gap : ∀ k, k < 31 → 4 ≤ k →
    (2 ^ k - delta.getD k 0) + 18 ≤ 2 ^ (k + 1) - delta.getD (k + 1) 0 := by
  decide

theorem chain_large : ∀ k, k < 32 → 30 ≤ k →
    603979776 ≤ 2 ^ k - delta.getD k 0 := by
  decide

theorem reachableCap_13 : ReachableCap 13 := ⟨4, by norm_num, by norm_num, by decide⟩

theorem reachableCap_ge13 {s : Nat} (h : ReachableCap s) : 13 ≤ s := by
  obtain ⟨k, h4, h31, hs⟩ := h
  rw [hs]
  exact chain_ge13 k (by omega) h4

end CapacityChain

section LoadFactor

variable {α β : Type}

/-- Fold of successive ht_insert calls over a list of key/value pairs,
threading the table state. -/
def insertTrace (ht0 : HashTab α β) (l : List (α × β)) : HashTab α β :=
  l.foldl (fun h p => (ht_insert h p.1 p.2).2) ht0

/-- Invariant tied to the load factor: the entry count stays below the load
factor times the capacity, the capacity is one of the reachable near-prime
values, and the entry count is bounded by the number of insert calls made. -/
def LoadInv (ht : HashTab α β) (t : Nat) : Prop :=
  (ht.num_entries : ℚ) ≤ ht.max_loadfactor * ht.size ∧
  ReachableCap ht.size ∧ ht.num_entries ≤ t

theorem LoadInv.mono {ht : HashTab α β} {t t' : Nat} (h : t ≤ t')
    (hinv : LoadInv ht t) : LoadInv ht t' :=
  ⟨hinv.1, hinv.2.1, le_trans hinv.2.2 h⟩

theorem loadInv_step (ht : HashTab α β) (k : α) (v : β) (t : Nat)
    (hml : 1 / 18 ≤ ht.max_loadfactor) (hinv : LoadInv ht t)
    (ht25 : t + 1 ≤ 2 ^ 25) :
    LoadInv (ht_insert ht k v).2 (t + 1) := by
  obtain ⟨hload, hreach, hcount⟩ := hinv
  have hs13 : 13 ≤ ht.size := reachableCap_ge13 hreach
  have hs0 : (0 : ℚ) < (ht.size : ℚ) := by
    have : (13 : ℚ) ≤ (ht.size : ℚ) := by exact_mod_cast hs13
    linarith
  have hml0 : (0 : ℚ) ≤ ht.max_loadfactor := le_trans (by norm_num) hml
  have hn' : (ht_insert ht k v).2.num_entries ≤ ht.num_entries + 1 := by
    rw [ht_insert_num_entries]
    split <;> omega
  refine ⟨?_, ?_, ?_⟩
  · rw [ht_insert_ml, ht_insert_size]
    by_cases hg : growCond ht
    · rw [if_pos hg]
      obtain ⟨kk, hk4, hk31, hks⟩ := hreach
      unfold growCond at hg
      have htrig : ht.max_loadfactor * (ht.size : ℚ) <
          ((ht.num_entries : ℚ) + 1) := by
        have := (lt_div_iff hs0).mp hg
        push_cast at this ⊢
        linarith
      have hsmall : (ht.size : ℚ) < 18 * ((ht.num_entries : ℚ) + 1) := by
        have h18 : (1 / 18 : ℚ) * (ht.size : ℚ) <
            ((ht.num_entries : ℚ) + 1) :=
          lt_of_le_of_lt (mul_le_mul_of_nonneg_right hml (le_of_lt hs0)) htrig
        linarith
      have hsize_lt : ht.size < 18 * (ht.num_entries + 1) := by
        exact_mod_cast hsmall
      have hbound : ht.size < 603979776 := by
        have : 18 * (ht.num_entries + 1) ≤ 18 * (t + 1) := by omega
        have h2 : 18 * (t + 1) ≤ 18 * 2 ^ 25 := by omega
        omega
      have hk29 : kk ≤ 29 := by
        by_contra hx
        have := chain_large kk (by omega) (by omega)
        omega
      have hstep := chain_step kk hk4 (by omega)
      have hgap := chain_gap kk (by omega) hk4
      unfold getsize
      rw [hks, hstep]
      have hgapQ : ((2 ^ kk - delta.getD kk 0 : Nat) : ℚ) + 18 ≤
          ((2 ^ (kk + 1) - delta.getD (kk + 1) 0 : Nat) : ℚ) := by
        exact_mod_cast hgap
      have h18ml : (1 : ℚ) ≤ 18 * ht.max_loadfactor := by linarith
      have hcast : ((ht_insert ht k v).2.num_entries : ℚ) ≤
          (ht.num_entries : ℚ) + 1 := by exact_mod_cast hn'
      calc ((ht_insert ht k v).2.num_entries : ℚ)
          ≤ (ht.num_entries : ℚ) + 1 := hcast
        _ ≤ ht.max_loadfactor * ((2 ^ kk - delta.getD kk 0 : Nat) : ℚ) + 1 := by
            rw [← hks]; linarith
        _ ≤ ht.max_loadfactor * ((2 ^ kk - delta.getD kk 0 : Nat) : ℚ) +
              18 * ht.max_loadfactor := by linarith
        _ = ht.max_loadfactor * (((2 ^ kk - delta.getD kk 0 : Nat) : ℚ) + 18) := by
            ring
        _ ≤ ht.max_loadfactor * ((2 ^ (kk + 1) - delta.getD (kk + 1) 0 : Nat) : ℚ) :=
            mul_le_mul_of_nonneg_left hgapQ hml0
    · rw [if_neg hg]
      unfold growCond at hg
      push_neg at hg
      have hle : ((ht.num_entries : ℚ) + 1) ≤
          ht.max_loadfactor * (ht.size : ℚ) :=
        (div_le_iff₀ hs0).mp hg
      have hcast : ((ht_insert ht k v).2.num_entries : ℚ) ≤
          (ht.num_entries : ℚ) + 1 := by exact_mod_cast hn'
      linarith
  · rw [ht_insert_size]
    by_cases hg : growCond ht
    · rw [if_pos hg]
      obtain ⟨kk, hk4, hk31, hks⟩ := hreach
      unfold growCond at hg
      have hsmall : (ht.size : ℚ) < 18 * ((ht.num_entries : ℚ) + 1) := by
        have htrig : ht.max_loadfactor * (ht.size : ℚ) <
            ((ht.num_entries : ℚ) + 1) := by
          have := (lt_div_iff hs0).mp hg
          push_cast at this ⊢
          linarith
        have h18 : (1 / 18 : ℚ) * (ht.size : ℚ) <
            ((ht.num_entries : ℚ) + 1) :=
          lt_of_le_of_lt (mul_le_mul_of_nonneg_right hml (le_of_lt hs0)) htrig
        linarith
      have hsize_lt : ht.size < 18 * (ht.num_entries + 1) := by
        exact_mod_cast hsmall
      have hbound : ht.size < 603979776 := by omega
      have hk29 : kk ≤ 29 := by
        by_contra hx
        have := chain_large kk (by omega) (by omega)
        omega
      have hstep := chain_step kk hk4 (by omega)
      unfold getsize
      rw [hks, hstep]
      exact ⟨kk + 1, by omega, by omega, rfl⟩
    · rw [if_neg hg]
      exact hreach
  · omega

theorem insertTrace_inv (l : List (α × β)) : ∀ (ht : HashTab α β) (t : Nat),
    1 / 18 ≤ ht.max_loadfactor → LoadInv ht t → t + l.length ≤ 2 ^ 25 →
    LoadInv (insertTrace ht l) (t + l.length) := by
  induction l with
  | nil =>
    intro ht t hml hinv hlen
    simpa [insertTrace] using hinv
  | cons p l' ih =>
    intro ht t hml hinv hlen
    have hstep := loadInv_step ht p.1 p.2 t hml hinv (by simp at hlen; omega)
    have hml' : 1 / 18 ≤ (ht_insert ht p.1 p.2).2.max_loadfactor := by
      rw [ht_insert_ml]; exact hml
    have := ih (ht_insert ht p.1 p.2).2 (t + 1) hml' hstep
      (by simp at hlen ⊢; omega)
    have heq : insertTrace ht (p :: l') = insertTrace (ht_insert ht p.1 p.2).2 l' := by
      simp [insertTrace]
    rw [heq]
    have hlen2 : t + 1 + l'.length = t + (p :: l').length := by
      simp
      omega
    rw [← hlen2]
    exact this

end LoadFactor

section TraceLemmas

variable {α β : Type}

theorem ht_init_WF (ml : ℚ) (hash : α → Nat → Nat) (cmp : α → α → Int) :
    WF (ht_init ml hash cmp : HashTab α β) := by
  constructor <;> intro i hi <;> simp [ht_init]

theorem ht_init_search (ml : ℚ) (hash : α → Nat → Nat) (cmp : α → α → Int)
    (k : α) : ht_search (ht_init ml hash cmp : HashTab α β) k = none := by
  simp [ht_search, ht_init]

theorem ht_init_goodFns (ml : ℚ) (hash : α → Nat → Nat) (cmp : α → α → Int)
    (hh : ∀ k s, 0 < s → hash k s < s) (hc : ∀ a b, cmp a b = 0 ↔ a = b) :
    GoodFns (ht_init ml hash cmp : HashTab α β) :=
  ⟨hh, hc⟩

theorem insertTrace_ml (l : List (α × β)) : ∀ (ht : HashTab α β),
    (insertTrace ht l).max_loadfactor = ht.max_loadfactor := by
  induction l with
  | nil => intro ht; rfl
  | cons p l' ih =>
    intro ht
    have heq : insertTrace ht (p :: l') =
        insertTrace (ht_insert ht p.1 p.2).2 l' := by simp [insertTrace]
    rw [heq, ih, ht_insert_ml]

theorem insertTrace_search : ∀ (l : List (α × β)) (ht : HashTab α β),
    GoodFns ht → WF ht → 0 < ht.size →
    (∀ k ∈ l.map Prod.fst, ht_search ht k = none) →
    (l.map Prod.fst).Nodup →
    GoodFns (insertTrace ht l) ∧ WF (insertTrace ht l) ∧
    0 < (insertTrace ht l).size ∧
    (∀ p ∈ l, ht_search (insertTrace ht l) p.1 = some p.2) ∧
    (∀ k, k ∉ l.map Prod.fst →
      ht_search (insertTrace ht l) k = ht_search ht k) := by
  intro l
  induction l with
  | nil =>
    intro ht hG hWF hpos hfresh hnd
    exact ⟨hG, hWF, hpos, by simp, fun k hk => rfl⟩
  | cons p l' ih =>
    intro ht hG hWF hpos hfresh hnd
    have hfp : ht_search ht p.1 = none := hfresh p.1 (by simp)
    obtain ⟨hres, hWF', hself, hother, hmem⟩ :=
      ht_insert_fresh hG hWF hpos p.1 p.2 hfp
    have hG' := ht_insert_goodFns hG p.1 p.2
    have hpos' := ht_insert_size_pos hpos p.1 p.2
    have hnd' : (l'.map Prod.fst).Nodup := by
      simp only [List.map_cons, List.nodup_cons] at hnd
      exact hnd.2
    have hp_notin : p.1 ∉ l'.map Prod.fst := by
      simp only [List.map_cons, List.nodup_cons] at hnd
      exact hnd.1
    have hfresh' : ∀ k ∈ l'.map Prod.fst,
        ht_search (ht_insert ht p.1 p.2).2 k = none := by
      intro k hk
      have hne : k ≠ p.1 := fun h => hp_notin (h ▸ hk)
      rw [hother k hne]
      exact hfresh k (by simp [hk])
    obtain ⟨ihG, ihWF, ihpos, ihfound, ihpres⟩ :=
      ih (ht_insert ht p.1 p.2).2 hG' hWF' hpos' hfresh' hnd'
    have heq : insertTrace ht (p :: l') =
        insertTrace (ht_insert ht p.1 p.2).2 l' := by simp [insertTrace]
    rw [heq]
    refine ⟨ihG, ihWF, ihpos, ?_, ?_⟩
    · intro q hq
      rcases List.mem_cons.mp hq with h | h
      · subst h
        rw [ihpres q.1 hp_notin]
        exact hself
      · exact ihfound q h
    · intro k hk
      have hk1 : k ∉ l'.map Prod.fst := by
        intro hx
        exact hk (by simp [hx])
      have hk2 : k ≠ p.1 := by
        intro hx
        exact hk (by simp [hx])
      rw [ihpres k hk1, hother k hk2]

end TraceLemmas

/-- Test hash function over natural-number keys, satisfying the bucket-index
contract of spec section 4.1: reduce the key modulo the capacity. -/
def natHash (k s : Nat) : Nat := k % s

/-- Test comparison function over natural-number keys in strcmp style: zero
exactly on equal keys. -/
def natCmp (a b : Nat) : Int := if a = b then 0 else 1

theorem natHash_lt : ∀ (k s : Nat), 0 < s → natHash k s < s :=
  fun k _ hs => Nat.mod_lt k hs

theorem natCmp_eq : ∀ (a b : Nat), natCmp a b = 0 ↔ a = b := by
  intro a b
  unfold natCmp
  split
  · simp [*]
  · simp [*]

theorem chain_odd : ∀ k, k < 32 → 4 ≤ k → (2 ^ k - delta.getD k 0) % 2 = 1 := by
  decide

theorem family_mono : ∀ i, i < 32 → ∀ j, j < 32 → i ≤ j →
    2 ^ i - delta.getD i 0 ≤ 2 ^ j - delta.getD j 0 := by
  decide

theorem goodFns_nat {β : Type} (ht : HashTab Nat β) (hh : ht.hash = natHash)
    (hc : ht.cmp = natCmp) : GoodFns ht := by
  constructor
  · rw [hh]; exact natHash_lt
  · rw [hc]; exact natCmp_eq

/-- C4 (counterexample): the claim quantifies over every hash table, but a
table created with load factor 1/64 violates the claimed invariant right
after its first successful insertion: the single growth step performed by
ht_insert leaves the load at 1/31, which still exceeds 1/64. -/
theorem c4_load_factor_counterexample :
    (ht_insert (ht_init (1/64) natHash natCmp : HashTab Nat Nat) 1 1).1 =
      InsertResult.success ∧
    ¬ (((ht_insert (ht_init (1/64) natHash natCmp : HashTab Nat Nat) 1 1).2.num_entries : ℚ) /
        ((ht_insert (ht_init (1/64) natHash natCmp : HashTab Nat Nat) 1 1).2.size : ℚ) ≤
        (ht_insert (ht_init (1/64) natHash natCmp : HashTab Nat Nat) 1 1).2.max_loadfactor) := by
  have hG : GoodFns (ht_init (1/64) natHash natCmp : HashTab Nat Nat) :=
    ht_init_goodFns _ _ _ natHash_lt natCmp_eq
  have hWF := ht_init_WF (α := Nat) (β := Nat) (1/64) natHash natCmp
  have hpos : 0 < (ht_init (1/64) natHash natCmp : HashTab Nat Nat).size := by
    decide
  obtain ⟨hres, -, -, -, -⟩ :=
    ht_insert_fresh hG hWF hpos 1 1 (ht_init_search (1/64) natHash natCmp 1)
  have hn := @ht_insert_num_entries Nat Nat
    (ht_init (1/64) natHash natCmp) 1 1
  rw [hres, if_pos rfl] at hn
  have hgrow : growCond (ht_init (1/64) natHash natCmp : HashTab Nat Nat) := by
    unfold growCond ht_init
    norm_num
  have hsz := @ht_insert_size Nat Nat
    (ht_init (1/64) natHash natCmp) 1 1
  rw [if_pos hgrow] at hsz
  have hgs : getsize (ht_init (1/64) natHash natCmp : HashTab Nat Nat) = 31 := by
    decide
  have hml := @ht_insert_ml Nat Nat
    (ht_init (1/64) natHash natCmp) 1 1
  refine ⟨hres, ?_⟩
  rw [hn, hsz, hgs, hml]
  simp only [ht_init]
  push_cast
  norm_num

/-- C4 (amended): for every table whose maximum load factor is at least 1/18
(the compiler always uses 0.75) and every sequence of at most 2^25 ht_insert
calls (past roughly that count the capacity computation in the C code
overflows int), after each insertion the entry count divided by the capacity
is at most the load factor; moreover growth runs before the final bucket is
computed: whenever the growth condition holds and the insert succeeds, the
new entry sits in the bucket its key hashes to under the post-growth
capacity. -/
theorem c4_load_factor_amended {α β : Type} (hash : α → Nat → Nat)
    (cmp : α → α → Int) (ml : ℚ) (hml : 1 / 18 ≤ ml) (l : List (α × β))
    (hlen : l.length ≤ 2 ^ 25) (j : Nat) :
    (((insertTrace (ht_init ml hash cmp) (l.take j)).num_entries : ℚ) /
        ((insertTrace (ht_init ml hash cmp) (l.take j)).size : ℚ) ≤ ml) ∧
    (∀ (ht : HashTab α β) (k : α) (v : β), growCond ht →
      (ht_insert ht k v).1 = InsertResult.success →
      (ht_insert ht k v).2.size = getsize ht ∧
      (k, v) ∈ (ht_insert ht k v).2.table
        ((ht_insert ht k v).2.hash k (ht_insert ht k v).2.size)) := by
  constructor
  · have hml0 : (0 : ℚ) ≤ ml := le_trans (by norm_num) hml
    have hbase : LoadInv (ht_init ml hash cmp : HashTab α β) 0 := by
      refine ⟨?_, reachableCap_13, le_refl 0⟩
      show ((0 : Nat) : ℚ) ≤ ml * ((13 : Nat) : ℚ)
      push_cast
      nlinarith
    have hinv := insertTrace_inv (l.take j) (ht_init ml hash cmp) 0 hml hbase
      (by simp only [List.length_take, Nat.zero_add]; omega)
    obtain ⟨hload, hreach, _⟩ := hinv
    have hmlq : (insertTrace (ht_init ml hash cmp) (l.take j)).max_loadfactor
        = ml := by rw [insertTrace_ml]; rfl
    rw [hmlq] at hload
    have hs13 := reachableCap_ge13 hreach
    have hs0 : (0 : ℚ) <
        ((insertTrace (ht_init ml hash cmp) (l.take j)).size : ℚ) := by
      have h13 : (13 : ℚ) ≤
          ((insertTrace (ht_init ml hash cmp) (l.take j)).size : ℚ) := by
        exact_mod_cast hs13
      linarith
    exact (div_le_iff₀ hs0).mpr (by linarith)
  · intro ht k v hg hsucc
    rw [ht_insert_eq_stages] at hsucc ⊢
    by_cases hA : ((growTable ht).table
        ((growTable ht).hash k (growTable ht).size)).any
        (fun p => (growTable ht).cmp k p.1 == 0) = true
    · rw [hA] at hsucc
      simp at hsucc
    · rw [Bool.not_eq_true] at hA
      rw [hA] at hsucc ⊢
      simp only [Bool.false_eq_true, if_false] at hsucc ⊢
      constructor
      · show (bucketInsert (growTable ht) k v).size = getsize ht
        unfold bucketInsert growTable
        rw [if_pos hg]
        exact rehash_size
      · show (k, v) ∈ (bucketInsert (growTable ht) k v).table
          ((bucketInsert (growTable ht) k v).hash k
            (bucketInsert (growTable ht) k v).size)
        unfold bucketInsert
        simp

/-- C5: growth (rehash) changes neither the entry count nor the stored
entries, only the capacity and the bucket assignment; and after inserting any
list of distinct keys into a fresh table (no matter how many growths that
forces), ht_search on every inserted key still returns its associated
value. -/
theorem c5_growth_preserves_entries {α β : Type} :
    (∀ ht : HashTab α β, GoodFns ht → WF ht → 0 < ht.size →
      (rehash ht).num_entries = ht.num_entries ∧
      (rehash ht).size = getsize ht ∧
      (∀ q, q ∈ allEntries (rehash ht) ↔ q ∈ allEntries ht) ∧
      (∀ k, ht_search (rehash ht) k = ht_search ht k)) ∧
    (∀ (hash : α → Nat → Nat) (cmp : α → α → Int) (ml : ℚ),
      (∀ k s, 0 < s → hash k s < s) → (∀ a b, cmp a b = 0 ↔ a = b) →
      ∀ l : List (α × β), (l.map Prod.fst).Nodup →
      ∀ p ∈ l,
        ht_search (insertTrace (ht_init ml hash cmp) l) p.1 = some p.2) := by
  constructor
  · intro ht hG hWF hpos
    exact ⟨rehash_num_entries, rehash_size,
      fun q => mem_allEntries_rehash hG, ht_search_rehash hG hWF hpos⟩
  · intro hash cmp ml hh hc l hnd p hp
    obtain ⟨-, -, -, hfound, -⟩ := insertTrace_search l (ht_init ml hash cmp)
      (ht_init_goodFns ml hash cmp hh hc) (ht_init_WF ml hash cmp)
      (by show (0 : Nat) < 13; norm_num)
      (fun k _ => ht_init_search ml hash cmp k) hnd
    exact hfound p hp

/-- C6: inserting a key that already exists (under the table's comparison
function) yields the distinguished already-exists result, which differs from
both the success code and the failure code returned for a null table, key or
value; the new value is discarded, and a subsequent search still returns the
originally stored value. -/
theorem c6_duplicate_keeps_old_value {α β : Type} (ht : HashTab α β) (k : α)
    (v w : β) (hG : GoodFns ht) (hWF : WF ht) (hpos : 0 < ht.size)
    (hsome : ht_search ht k = some w) :
    (ht_insert ht k v).1 = InsertResult.keyExists ∧
    InsertResult.keyExists ≠ InsertResult.success ∧
    InsertResult.keyExists ≠ InsertResult.failure ∧
    ht_search (ht_insert ht k v).2 k = some w ∧
    (∀ (t? : Option (HashTab α β)) (k? : Option α) (v? : Option β),
      t? = none ∨ k? = none ∨ v? = none →
      (ht_insertChecked t? k? v?).1 = InsertResult.failure) := by
  obtain ⟨h1, -, hsearch, -⟩ := ht_insert_dup hG hWF hpos k v w hsome
  refine ⟨h1, by simp, by simp, by rw [hsearch k]; exact hsome, ?_⟩
  rintro t? k? v? (rfl | rfl | rfl)
  · cases k? <;> cases v? <;> rfl
  · cases t? <;> cases v? <;> rfl
  · cases t? <;> cases k? <;> rfl

/-- C7 (counterexample): the very first growth step, from the initial
capacity 13, produces capacity 31, and 31 is not of the claimed form
2^(k+1) - delta[k] for any index k of the delta table (the code actually
computes 2^k - delta[k], i.e. the delta index matches the exponent). -/
theorem c7_capacity_counterexample :
    getsize (ht_init (3/4) natHash natCmp : HashTab Nat Nat) = 31 ∧
    ¬ (31 ∈ (List.range 32).map (fun k => 2 ^ (k + 1) - delta.getD k 0)) := by
  decide

/-- C7 (amended): whenever growth triggers from a reachable capacity (inside
the range where the C arithmetic is defined), the new capacity computed by
getsize is the smallest value of the form 2^k - delta[k] that exceeds the
current capacity, delta being the power-of-two-minus-largest-prime table; and
every reachable capacity is odd and never a power of two. -/
theorem c7_capacity_amended (s : Nat) (h : ReachableCap s) :
    (s % 2 = 1 ∧ ∀ m : Nat, s ≠ 2 ^ m) ∧
    (s ≤ 536870909 →
      getsizeN s ∈ (List.range 32).map (fun j => 2 ^ j - delta.getD j 0) ∧
      s < getsizeN s ∧
      ∀ x ∈ (List.range 32).map (fun j => 2 ^ j - delta.getD j 0),
        s < x → getsizeN s ≤ x) := by
  obtain ⟨kk, hk4, hk31, hs⟩ := h
  have hodd : s % 2 = 1 := by
    rw [hs]
    exact chain_odd kk (by omega) hk4
  have hge13 : 13 ≤ s := by
    rw [hs]
    exact chain_ge13 kk (by omega) hk4
  constructor
  · refine ⟨hodd, ?_⟩
    intro m hm
    cases m with
    | zero =>
      rw [hm] at hge13
      norm_num at hge13
    | succ m' =>
      rw [pow_succ] at hm
      omega
  · intro hle
    have hk29 : kk ≤ 29 := by
      by_contra hx
      have := chain_large kk (by omega) (by omega)
      omega
    have hstep : getsizeN s = 2 ^ (kk + 1) - delta.getD (kk + 1) 0 := by
      rw [hs]
      exact chain_step kk hk4 (by omega)
    have hgap := chain_gap kk (by omega) hk4
    refine ⟨?_, ?_, ?_⟩
    · rw [hstep]
      simp only [List.mem_map, List.mem_range]
      exact ⟨kk + 1, by omega, rfl⟩
    · rw [hstep, hs]
      omega
    · intro x hx hgt
      simp only [List.mem_map, List.mem_range] at hx
      obtain ⟨jj, hjj, hxe⟩ := hx
      by_cases hcase : jj ≤ kk
      · have := family_mono jj hjj kk (by omega) hcase
        rw [hxe, ← hs] at this
        omega
      · have := family_mono (kk + 1) (by omega) jj hjj (by omega)
        rw [hstep, ← hxe]
        exact this

/-- C10: inserting a key that is already present leaves the entry count and
the set of stored entries unchanged, but the load-factor check and the
rehash run before the duplicate-key existence check, so the capacity still
grows exactly when the growth condition holds. -/
theorem c10_duplicate_may_grow {α β : Type} (ht : HashTab α β) (k : α)
    (v w : β) (hG : GoodFns ht) (hWF : WF ht) (hpos : 0 < ht.size)
    (hsome : ht_search ht k = some w) :
    (ht_insert ht k v).1 = InsertResult.keyExists ∧
    (ht_insert ht k v).2.num_entries = ht.num_entries ∧
    (∀ q, q ∈ allEntries (ht_insert ht k v).2 ↔ q ∈ allEntries ht) ∧
    (ht_insert ht k v).2.size =
      (if growCond ht then getsize ht else ht.size) := by
  obtain ⟨h1, -, -, hmem⟩ := ht_insert_dup hG hWF hpos k v w hsome
  refine ⟨h1, ?_, hmem, ht_insert_size k v⟩
  rw [ht_insert_num_entries, h1]
  simp

theorem c4_load_factor_witness :
    (((insertTrace (ht_init (3/4) natHash natCmp : HashTab Nat Nat)
        ([((1 : Nat), (1 : Nat))].take 1)).num_entries : ℚ) /
      ((insertTrace (ht_init (3/4) natHash natCmp : HashTab Nat Nat)
        ([((1 : Nat), (1 : Nat))].take 1)).size : ℚ) ≤ 3/4) ∧
    (∀ (ht : HashTab Nat Nat) (k v : Nat), growCond ht →
      (ht_insert ht k v).1 = InsertResult.success →
      (ht_insert ht k v).2.size = getsize ht ∧
      (k, v) ∈ (ht_insert ht k v).2.table
        ((ht_insert ht k v).2.hash k (ht_insert ht k v).2.size)) :=
  c4_load_factor_amended natHash natCmp (3/4) (by norm_num)
    [((1 : Nat), (1 : Nat))] (by decide) 1

theorem c5_witness :
    ht_search (insertTrace (ht_init (3/4) natHash natCmp : HashTab Nat Nat)
      [(0, 100), (1, 101), (2, 102), (3, 103), (4, 104), (5, 105), (6, 106),
       (7, 107), (8, 108), (9, 109), (10, 110), (11, 111), (12, 112),
       (13, 113)]) 13 = some 113 :=
  (c5_growth_preserves_entries (α := Nat) (β := Nat)).2 natHash natCmp (3/4)
    natHash_lt natCmp_eq
    [(0, 100), (1, 101), (2, 102), (3, 103), (4, 104), (5, 105), (6, 106),
     (7, 107), (8, 108), (9, 109), (10, 110), (11, 111), (12, 112),
     (13, 113)]
    (by decide) (13, 113) (by decide)

theorem c6_witness :
    (ht_insert (insertTrace (ht_init (3/4) natHash natCmp : HashTab Nat Nat)
        [(2, 22), (3, 33)]) 2 99).1 = InsertResult.keyExists ∧
    InsertResult.keyExists ≠ InsertResult.success ∧
    InsertResult.keyExists ≠ InsertResult.failure ∧
    ht_search (ht_insert
        (insertTrace (ht_init (3/4) natHash natCmp : HashTab Nat Nat)
          [(2, 22), (3, 33)]) 2 99).2 2 = some 22 ∧
    (∀ (t? : Option (HashTab Nat Nat)) (k? : Option Nat) (v? : Option Nat),
      t? = none ∨ k? = none ∨ v? = none →
      (ht_insertChecked t? k? v?).1 = InsertResult.failure) := by
  obtain ⟨hG, hWF, hpos, hfound, -⟩ :=
    insertTrace_search [(2, 22), (3, 33)] (ht_init (3/4) natHash natCmp)
      (ht_init_goodFns _ _ _ natHash_lt natCmp_eq) (ht_init_WF _ _ _)
      (by show (0 : Nat) < 13; norm_num)
      (fun k _ => ht_init_search _ _ _ k) (by decide)
  exact c6_duplicate_keeps_old_value _ 2 99 22 hG hWF hpos
    (hfound (2, 22) (by decide))

theorem c7_capacity_witness :
    ((13 % 2 = 1 ∧ ∀ m : Nat, (13 : Nat) ≠ 2 ^ m) ∧
     ((13 : Nat) ≤ 536870909 →
       getsizeN 13 ∈ (List.range 32).map (fun j => 2 ^ j - delta.getD j 0) ∧
       13 < getsizeN 13 ∧
       ∀ x ∈ (List.range 32).map (fun j => 2 ^ j - delta.getD j 0),
         13 < x → getsizeN 13 ≤ x)) :=
  c7_capacity_amended 13 reachableCap_13

theorem c10_witness :
    (ht_insert (insertTrace (ht_init (3/4) natHash natCmp : HashTab Nat Nat)
        [(0, 100), (1, 101), (2, 102), (3, 103), (4, 104), (5, 105), (6, 106),
         (7, 107), (8, 108)]) 0 999).1 = InsertResult.keyExists ∧
    (ht_insert (insertTrace (ht_init (3/4) natHash natCmp : HashTab Nat Nat)
        [(0, 100), (1, 101), (2, 102), (3, 103), (4, 104), (5, 105), (6, 106),
         (7, 107), (8, 108)]) 0 999).2.num_entries =
      (insertTrace (ht_init (3/4) natHash natCmp : HashTab Nat Nat)
        [(0, 100), (1, 101), (2, 102), (3, 103), (4, 104), (5, 105), (6, 106),
         (7, 107), (8, 108)]).num_entries ∧
    (∀ q, q ∈ allEntries (ht_insert
        (insertTrace (ht_init (3/4) natHash natCmp : HashTab Nat Nat)
          [(0, 100), (1, 101), (2, 102), (3, 103), (4, 104), (5, 105),
           (6, 106), (7, 107), (8, 108)]) 0 999).2 ↔
      q ∈ allEntries (insertTrace
        (ht_init (3/4) natHash natCmp : HashTab Nat Nat)
        [(0, 100), (1, 101), (2, 102), (3, 103), (4, 104), (5, 105), (6, 106),
         (7, 107), (8, 108)])) ∧
    (ht_insert (insertTrace (ht_init (3/4) natHash natCmp : HashTab Nat Nat)
        [(0, 100), (1, 101), (2, 102), (3, 103), (4, 104), (5, 105), (6, 106),
         (7, 107), (8, 108)]) 0 999).2.size =
      (if growCond (insertTrace
          (ht_init (3/4) natHash natCmp : HashTab Nat Nat)
          [(0, 100), (1, 101), (2, 102), (3, 103), (4, 104), (5, 105),
           (6, 106), (7, 107), (8, 108)]) then
        getsize (insertTrace (ht_init (3/4) natHash natCmp : HashTab Nat Nat)
          [(0, 100), (1, 101), (2, 102), (3, 103), (4, 104), (5, 105),
           (6, 106), (7, 107), (8, 108)])
      else (insertTrace (ht_init (3/4) natHash natCmp : HashTab Nat Nat)
          [(0, 100), (1, 101), (2, 102), (3, 103), (4, 104), (5, 105),
           (6, 106), (7, 107), (8, 108)]).size) := by
  obtain ⟨hG, hWF, hpos, hfound, -⟩ :=
    insertTrace_search
      [(0, 100), (1, 101), (2, 102), (3, 103), (4, 104), (5, 105), (6, 106),
       (7, 107), (8, 108)]
      (ht_init (3/4) natHash natCmp)
      (ht_init_goodFns _ _ _ natHash_lt natCmp_eq) (ht_init_WF _ _ _)
      (by show (0 : Nat) < 13; norm_num)
      (fun k _ => ht_init_search _ _ _ k) (by decide)
  exact c10_duplicate_may_grow _ 0 999 100 hG hWF hpos
    (hfound (0, 100) (by decide))

/-- shift_hash from symboltable.c (the non-debug branch): a 32-bit unsigned
rotate-left-by-5 accumulator over the bytes of the key, reduced modulo the
table size at the end.  C unsigned int arithmetic wraps modulo 2^32. -/
def shift_hash (key : String) (size : Nat) : Nat :=
  (key.data.foldl
    (fun hash c =>
      ((((hash <<< 5) % 4294967296) ||| (hash >>> 27)) + c.toNat) % 4294967296)
    0) % size

theorem shift_hash_lt : ∀ (k : String) (s : Nat), 0 < s → shift_hash k s < s :=
  fun _ _ hs => Nat.mod_lt _ hs

/-- key_strcmp from symboltable.c wraps strcmp on the two keys; the hash
table tests the result only against zero, which holds exactly on equal
strings. -/
def key_strcmp (a b : String) : Int :=
  if a = b then 0 else if a < b then -1 else 1

theorem key_strcmp_eq : ∀ (a b : String), key_strcmp a b = 0 ↔ a = b := by
  intro a b
  unfold key_strcmp
  split
  · simp [*]
  · split <;> simp [*]

/-- Semantic value type of a symbol-table entry.  Modelled from the spec:
the headers defining the value types and the IS_CALLABLE_TYPE / IS_VARIABLE
macros are not under src; the spec says a property denotes a scalar kind, an
array, or a callable (subroutine), and that variables are exactly the
non-callables. -/
inductive ValType where
  | scalarInt : ValType
  | scalarBool : ValType
  | arrayInt : ValType
  | arrayBool : ValType
  | callable : ValType
deriving DecidableEq

/-- IS_CALLABLE_TYPE macro, modelled from the spec: true exactly on the
callable (subroutine) type. -/
def IS_CALLABLE_TYPE (t : ValType) : Bool :=
  match t with
  | ValType.callable => true
  | _ => false

/-- IS_VARIABLE macro, modelled from the spec: variables are the
non-callable entries. -/
def IS_VARIABLE (t : ValType) : Bool := !(IS_CALLABLE_TYPE t)

/-- IDPropt record, modelled from the spec: the semantic value type of the
identifier plus its variable offset slot. -/
structure IDPropt where
  type : ValType
  offset : Nat
deriving DecidableEq

/-- Global state of symboltable.c: the active table, the saved (enclosing)
table, and the running offset counter curr_offset. -/
structure SymState where
  table : Option (HashTab String IDPropt)
  saved_table : Option (HashTab String IDPropt)
  curr_offset : Nat

/-- init_symbol_table from symboltable.c (allocation assumed to succeed): a
fresh global table with load factor 0.75, a cleared saved slot, and the
offset counter at 1. -/
def init_symbol_table : SymState :=
  { table := some (ht_init (3/4) shift_hash key_strcmp),
    saved_table := none, curr_offset := 1 }

/-- open_subroutine from symboltable.c: insert the subroutine's own name into
the active table, then save that table, activate a fresh one and reset the
offset counter to 1; fail if no table is active or the insertion does not
return EXIT_SUCCESS (the table may still have been grown by the failed
insertion, which the model keeps, mirroring the in-place C mutation). -/
def open_subroutine (st : SymState) (id : String) (prop : IDPropt) :
    Bool × SymState :=
  match st.table with
  | none => (false, st)
  | some t =>
    let r := ht_insert t id prop
    if r.1 = InsertResult.success then
      (true,
       { table := some (ht_init (3/4) shift_hash key_strcmp),
         saved_table := some r.2, curr_offset := 1 })
    else (false, { st with table := some r.2 })

/-- close_subroutine from symboltable.c: release the active table, reactivate
the saved one and clear the saved slot; the offset counter is set to 0 in
either case. -/
def close_subroutine (st : SymState) : SymState :=
  match st.table with
  | some _ =>
    { table := st.saved_table, saved_table := none, curr_offset := 0 }
  | none => { st with curr_offset := 0 }

/-- insert_name from symboltable.c.  The C code inserts the property record
into the active table and then, for a variable, writes the current offset
into that same record and increments the counter; since the table stores the
pointer, the stored entry carries the offset, which this model reflects by
writing the offset into the record before handing it to ht_insert. -/
def insert_name (st : SymState) (id : String) (prop : IDPropt) :
    Bool × SymState :=
  match st.table with
  | none => (false, st)
  | some t =>
    let prop' := if IS_VARIABLE prop.type then
        { prop with offset := st.curr_offset }
      else prop
    let r := ht_insert t id prop'
    if r.1 = InsertResult.success then
      if IS_VARIABLE prop.type then
        (true,
         { st with
           table := some r.2
           curr_offset := st.curr_offset + 1 })
      else (true, { st with table := some r.2 })
    else (false, { st with table := some r.2 })

/-- find_name from symboltable.c: search the active table; on a miss, if a
saved scope exists, search it too, but discard a hit found only there unless
it denotes a callable.  The C function returns TRUE exactly when the
out-parameter is non-null, i.e. when this model returns some. -/
def find_name (st : SymState) (id : String) : Option IDPropt :=
  match ht_searchChecked st.table id with
  | some p => some p
  | none =>
    match st.saved_table with
    | none => none
    | some sv =>
      match ht_search sv id with
      | none => none
      | some p => if IS_CALLABLE_TYPE p.type then some p else none

/-- get_variables_width from symboltable.c: the running offset counter. -/
def get_variables_width (st : SymState) : Nat := st.curr_offset

/-- Fold of successive insert_name calls, threading the symbol-table state. -/
def runInserts (st : SymState) (l : List (String × IDPropt)) : SymState :=
  l.foldl (fun s p => (insert_name s p.1 p.2).2) st

section SymbolLemmas

theorem ht_insert_search_other {α β : Type} {ht : HashTab α β}
    (hG : GoodFns ht) (hWF : WF ht) (hpos : 0 < ht.size)
    {k k' : α} (hne : k' ≠ k) (v : β) :
    ht_search (ht_insert ht k v).2 k' = ht_search ht k' := by
  rw [ht_insert_eq_stages]
  by_cases hA : ((growTable ht).table
      ((growTable ht).hash k (growTable ht).size)).any
      (fun p => (growTable ht).cmp k p.1 == 0) = true
  · rw [hA]
    simp only [if_true]
    exact growTable_search hG hWF hpos k'
  · rw [Bool.not_eq_true] at hA
    rw [hA]
    simp only [Bool.false_eq_true, if_false]
    rw [bucketInsert_search_other (growTable_goodFns hG).2 k v hne]
    exact growTable_search hG hWF hpos k'

theorem goodFns_sym {ht : HashTab String IDPropt}
    (hh : ht.hash = shift_hash) (hc : ht.cmp = key_strcmp) : GoodFns ht := by
  constructor
  · rw [hh]; exact shift_hash_lt
  · rw [hc]; exact key_strcmp_eq

theorem find_name_no_saved {st : SymState} {t : HashTab String IDPropt}
    (ht_eq : st.table = some t) (hsv : st.saved_table = none) (id : String) :
    find_name st id = ht_search t id := by
  unfold find_name ht_searchChecked
  rw [ht_eq, hsv]
  cases hs : ht_search t id with
  | none => simp [hs]
  | some p => simp [hs]

theorem insert_name_eq {st : SymState} {t : HashTab String IDPropt}
    (h : st.table = some t) (id : String) (prop : IDPropt) :
    insert_name st id prop =
      (if (ht_insert t id (if IS_VARIABLE prop.type then
            { prop with offset := st.curr_offset } else prop)).1 =
          InsertResult.success then
        (true,
         { st with
           table := some (ht_insert t id (if IS_VARIABLE prop.type then
             { prop with offset := st.curr_offset } else prop)).2
           curr_offset := if IS_VARIABLE prop.type then st.curr_offset + 1
             else st.curr_offset })
      else
        (false,
         { st with table := some (ht_insert t id
             (if IS_VARIABLE prop.type then
               { prop with offset := st.curr_offset } else prop)).2 })) := by
  unfold insert_name
  rw [h]
  by_cases hvar : IS_VARIABLE prop.type = true <;>
    simp only [hvar, if_true, if_false, Bool.false_eq_true] <;> rfl

end SymbolLemmas

/-- C9: a failed insert_name never consumes an offset slot: whenever the call
returns FALSE (no active table, or the underlying ht_insert did not return
success, e.g. the name already present in the active scope) the running
offset counter is unchanged; and even a successful insertion moves the
counter only for a variable (non-callable) property. -/
theorem c9_failed_insert_offset (st : SymState) (id : String)
    (prop : IDPropt) :
    ((insert_name st id prop).1 = false →
      (insert_name st id prop).2.curr_offset = st.curr_offset) ∧
    ((insert_name st id prop).1 = true → IS_VARIABLE prop.type = false →
      (insert_name st id prop).2.curr_offset = st.curr_offset) := by
  cases htab : st.table with
  | none =>
    unfold insert_name
    rw [htab]
    exact ⟨fun _ => rfl, fun _ _ => rfl⟩
  | some t =>
    rw [insert_name_eq htab]
    by_cases hvar : IS_VARIABLE prop.type = true
    · simp only [hvar, if_true]
      by_cases hres : (ht_insert t id
          { prop with offset := st.curr_offset }).1 = InsertResult.success
      · simp [hres, hvar]
      · simp [hres]
    · simp only [hvar, Bool.false_eq_true, if_false]
      by_cases hres : (ht_insert t id prop).1 = InsertResult.success
      · simp [hres]
      · simp [hres]

theorem c9_witness :
    ((insert_name ⟨none, none, 5⟩ "x" ⟨ValType.scalarInt, 0⟩).1 = false →
      (insert_name ⟨none, none, 5⟩ "x"
        ⟨ValType.scalarInt, 0⟩).2.curr_offset = 5) ∧
    ((insert_name ⟨none, none, 5⟩ "x" ⟨ValType.scalarInt, 0⟩).1 = true →
      IS_VARIABLE ValType.scalarInt = false →
      (insert_name ⟨none, none, 5⟩ "x"
        ⟨ValType.scalarInt, 0⟩).2.curr_offset = 5) :=
  c9_failed_insert_offset ⟨none, none, 5⟩ "x" ⟨ValType.scalarInt, 0⟩

/-- C1: while a subroutine scope is active, a name absent from the active
scope but present in the saved (enclosing) scope is returned by find_name
exactly when it denotes a callable, so a variable entry of the enclosing
scope is reported absent; and a variable inserted only in the subroutine
scope is no longer found once close_subroutine has restored the global
scope. -/
theorem insert_name_parts {st : SymState} {t : HashTab String IDPropt}
    (h : st.table = some t) (id : String) (prop : IDPropt) :
    (insert_name st id prop).2.table =
      some (ht_insert t id (if IS_VARIABLE prop.type then
        { prop with offset := st.curr_offset } else prop)).2 ∧
    (insert_name st id prop).2.saved_table = st.saved_table := by
  rw [insert_name_eq h id prop]
  by_cases hc2 : (ht_insert t id (if IS_VARIABLE prop.type then
      { prop with offset := st.curr_offset } else prop)).1 =
      InsertResult.success
  · rw [if_pos hc2]
    exact ⟨rfl, rfl⟩
  · rw [if_neg hc2]
    exact ⟨rfl, rfl⟩

/-- C1: while a subroutine scope is active, a name absent from the active
scope but present in the saved (enclosing) scope is returned by find_name
exactly when it denotes a callable, so a variable entry of the enclosing
scope is reported absent; and a variable inserted only in the subroutine
scope is no longer found once close_subroutine has restored the global
scope. -/
theorem c1_find_name_scoping :
    (∀ (st : SymState) (sv : HashTab String IDPropt) (id : String)
      (p : IDPropt),
      st.saved_table = some sv →
      ht_searchChecked st.table id = none →
      ht_search sv id = some p →
      find_name st id =
        (if IS_CALLABLE_TYPE p.type then some p else none)) ∧
    (∀ (g : HashTab String IDPropt) (fname id : String)
      (fprop vprop : IDPropt) (off : Nat),
      g.hash = shift_hash → g.cmp = key_strcmp → WF g → 0 < g.size →
      ht_search g id = none → id ≠ fname →
      IS_VARIABLE vprop.type = true →
      (open_subroutine ⟨some g, none, off⟩ fname fprop).1 = true →
      (insert_name (open_subroutine ⟨some g, none, off⟩ fname fprop).2 id
        vprop).1 = true →
      find_name (close_subroutine
        (insert_name (open_subroutine ⟨some g, none, off⟩ fname fprop).2 id
          vprop).2) id = none) := by
  constructor
  · intro st sv id p hsv hnone hsome
    unfold find_name
    rw [hnone, hsv]
    simp [hsome]
  · intro g fname id fprop vprop off hh hc hWF hpos hgid hne hvar hopen hins
    have hG : GoodFns g := goodFns_sym hh hc
    have hres : (ht_insert g fname fprop).1 = InsertResult.success := by
      by_contra hx
      unfold open_subroutine at hopen
      simp only [if_neg hx] at hopen
      exact Bool.noConfusion hopen
    have hst1 : (open_subroutine ⟨some g, none, off⟩ fname fprop).2 =
        ⟨some (ht_init (3/4) shift_hash key_strcmp),
         some (ht_insert g fname fprop).2, 1⟩ := by
      unfold open_subroutine
      simp only [if_pos hres]
    rw [hst1]
    obtain ⟨htab2, hsav2⟩ := @insert_name_parts
      ⟨some (ht_init (3/4) shift_hash key_strcmp),
       some (ht_insert g fname fprop).2, 1⟩
      (ht_init (3/4) shift_hash key_strcmp)
      rfl id vprop
    have hclose : close_subroutine (insert_name
        ⟨some (ht_init (3/4) shift_hash key_strcmp),
         some (ht_insert g fname fprop).2, 1⟩ id vprop).2 =
        ⟨some (ht_insert g fname fprop).2, none, 0⟩ := by
      unfold close_subroutine
      simp only [htab2]
      rw [hsav2]
    rw [hclose, find_name_no_saved rfl rfl id,
        ht_insert_search_other hG hWF hpos hne fprop]
    exact hgid

theorem c1_witness :
    (find_name
        ⟨some (ht_init (3/4) shift_hash key_strcmp),
         some (ht_insert (ht_init (3/4) shift_hash key_strcmp) "v"
           ⟨ValType.scalarInt, 7⟩).2, 1⟩ "v" =
      (if IS_CALLABLE_TYPE ValType.scalarInt then
        some (⟨ValType.scalarInt, 7⟩ : IDPropt) else none)) ∧
    find_name (close_subroutine
      (insert_name (open_subroutine
        ⟨some (ht_init (3/4) shift_hash key_strcmp), none, 1⟩ "f"
          ⟨ValType.callable, 0⟩).2 "x" ⟨ValType.scalarInt, 0⟩).2) "x" =
      none := by
  have hG0 : GoodFns (ht_init (3/4) shift_hash key_strcmp :
      HashTab String IDPropt) := goodFns_sym rfl rfl
  have hWF0 := ht_init_WF (α := String) (β := IDPropt) (3/4) shift_hash
    key_strcmp
  have hpos0 : 0 < (ht_init (3/4) shift_hash key_strcmp :
      HashTab String IDPropt).size := by
    show (0 : Nat) < 13
    norm_num
  constructor
  · have hv := ht_insert_fresh hG0 hWF0 hpos0 "v"
      (⟨ValType.scalarInt, 7⟩ : IDPropt)
      (ht_init_search (3/4) shift_hash key_strcmp "v")
    exact c1_find_name_scoping.1 _ _ "v" ⟨ValType.scalarInt, 7⟩ rfl
      (ht_init_search (3/4) shift_hash key_strcmp "v") hv.2.2.1
  · have hfsucc := (ht_insert_fresh hG0 hWF0 hpos0 "f"
      (⟨ValType.callable, 0⟩ : IDPropt)
      (ht_init_search (3/4) shift_hash key_strcmp "f")).1
    have hopen : (open_subroutine
        ⟨some (ht_init (3/4) shift_hash key_strcmp), none, 1⟩ "f"
        ⟨ValType.callable, 0⟩).1 = true := by
      unfold open_subroutine
      simp only [if_pos hfsucc]
    have hst1 : (open_subroutine
        ⟨some (ht_init (3/4) shift_hash key_strcmp), none, 1⟩ "f"
        ⟨ValType.callable, 0⟩).2 =
        ⟨some (ht_init (3/4) shift_hash key_strcmp),
         some (ht_insert (ht_init (3/4) shift_hash key_strcmp) "f"
           ⟨ValType.callable, 0⟩).2, 1⟩ := by
      unfold open_subroutine
      simp only [if_pos hfsucc]
    have hxsucc := (ht_insert_fresh hG0 hWF0 hpos0 "x"
      ({ type := ValType.scalarInt, offset := 1 } : IDPropt)
      (ht_init_search (3/4) shift_hash key_strcmp "x")).1
    have hins : (insert_name (open_subroutine
        ⟨some (ht_init (3/4) shift_hash key_strcmp), none, 1⟩ "f"
        ⟨ValType.callable, 0⟩).2 "x" ⟨ValType.scalarInt, 0⟩).1 = true := by
      rw [hst1]
      rw [insert_name_eq rfl "x" ⟨ValType.scalarInt, 0⟩]
      have hv : IS_VARIABLE (⟨ValType.scalarInt, 0⟩ : IDPropt).type = true :=
        rfl
      simp only [hv, if_true]
      rw [if_pos hxsucc]
    exact c1_find_name_scoping.2 (ht_init (3/4) shift_hash key_strcmp)
      "f" "x" ⟨ValType.callable, 0⟩ ⟨ValType.scalarInt, 0⟩ 1 rfl rfl hWF0
      hpos0 (ht_init_search (3/4) shift_hash key_strcmp "x") (by decide)
      rfl hopen hins

/-- Search-level description of consecutively assigned offsets: every entry
of the list is stored in the table with the next offset, counting up from the
base. -/
def OffsetsFrom (t' : HashTab String IDPropt) :
    Nat → List (String × IDPropt) → Prop
  | _, [] => True
  | off, q :: qs =>
    ht_search t' q.1 = some { q.2 with offset := off } ∧
    OffsetsFrom t' (off + 1) qs

theorem offsetsFrom_get : ∀ (vs : List (String × IDPropt)) (b : Nat)
    (t' : HashTab String IDPropt), OffsetsFrom t' b vs →
    ∀ i, (hi : i < vs.length) →
      ht_search t' (vs.get ⟨i, hi⟩).1 =
        some { (vs.get ⟨i, hi⟩).2 with offset := b + i } := by
  intro vs
  induction vs with
  | nil =>
    intro b t' _ i hi
    exact absurd hi (by simp)
  | cons q qs ih =>
    intro b t' hof i hi
    cases i with
    | zero =>
      simpa using hof.1
    | succ j =>
      have hj : j < qs.length := by simpa using hi
      have := ih (b + 1) t' hof.2 j hj
      simpa [Nat.add_assoc, Nat.add_comm 1 j] using this

theorem runInserts_spec : ∀ (l : List (String × IDPropt))
    (t : HashTab String IDPropt) (off : Nat)
    (sv : Option (HashTab String IDPropt)),
    t.hash = shift_hash → t.cmp = key_strcmp → WF t → 0 < t.size →
    (∀ k ∈ l.map Prod.fst, ht_search t k = none) →
    (l.map Prod.fst).Nodup →
    ∃ t', (runInserts ⟨some t, sv, off⟩ l).table = some t' ∧
      (runInserts ⟨some t, sv, off⟩ l).saved_table = sv ∧
      (runInserts ⟨some t, sv, off⟩ l).curr_offset =
        off + (l.filter (fun q => IS_VARIABLE q.2.type)).length ∧
      t'.hash = shift_hash ∧ t'.cmp = key_strcmp ∧ WF t' ∧ 0 < t'.size ∧
      OffsetsFrom t' off (l.filter (fun q => IS_VARIABLE q.2.type)) ∧
      (∀ k, k ∉ l.map Prod.fst → ht_search t' k = ht_search t k) := by
  intro l
  induction l with
  | nil =>
    intro t off sv hh hc hWF hpos hfresh hnd
    exact ⟨t, rfl, rfl, by simp [runInserts], hh, hc, hWF, hpos, trivial,
      fun k _ => rfl⟩
  | cons p l' ih =>
    intro t off sv hh hc hWF hpos hfresh hnd
    have hG : GoodFns t := goodFns_sym hh hc
    have hfp : ht_search t p.1 = none := hfresh p.1 (by simp)
    have hnd' : (l'.map Prod.fst).Nodup := by
      simp only [List.map_cons, List.nodup_cons] at hnd
      exact hnd.2
    have hp_notin : p.1 ∉ l'.map Prod.fst := by
      simp only [List.map_cons, List.nodup_cons] at hnd
      exact hnd.1
    have hrun : runInserts ⟨some t, sv, off⟩ (p :: l') =
        runInserts (insert_name ⟨some t, sv, off⟩ p.1 p.2).2 l' := by
      simp [runInserts]
    by_cases hvar : IS_VARIABLE p.2.type = true
    · have hins := ht_insert_fresh hG hWF hpos p.1
        ({ p.2 with offset := off }) hfp
      have hst1 : (insert_name ⟨some t, sv, off⟩ p.1 p.2).2 =
          ⟨some (ht_insert t p.1 { p.2 with offset := off }).2, sv,
           off + 1⟩ := by
        rw [insert_name_eq rfl p.1 p.2]
        simp only [hvar, if_true]
        rw [if_pos hins.1]
      have hh1 : (ht_insert t p.1 { p.2 with offset := off }).2.hash =
          shift_hash := by rw [ht_insert_hash]; exact hh
      have hc1 : (ht_insert t p.1 { p.2 with offset := off }).2.cmp =
          key_strcmp := by rw [ht_insert_cmp]; exact hc
      have hfresh' : ∀ k ∈ l'.map Prod.fst,
          ht_search (ht_insert t p.1 { p.2 with offset := off }).2 k =
            none := by
        intro k hk
        have hne : k ≠ p.1 := fun h => hp_notin (h ▸ hk)
        rw [hins.2.2.2.1 k hne]
        exact hfresh k (by simp [hk])
      obtain ⟨t', htab, hsav, hoff, hh', hc', hWF', hpos', hfound, hpres⟩ :=
        ih (ht_insert t p.1 { p.2 with offset := off }).2 (off + 1) sv hh1
          hc1 hins.2.1 (ht_insert_size_pos hpos p.1 _) hfresh' hnd'
      have hfc : (p :: l').filter (fun q => IS_VARIABLE q.2.type) =
          p :: l'.filter (fun q => IS_VARIABLE q.2.type) := by
        simp [List.filter_cons, hvar]
      rw [hrun, hst1]
      refine ⟨t', htab, hsav, ?_, hh', hc', hWF', hpos', ?_, ?_⟩
      · rw [hoff, hfc]
        simp only [List.length_cons]
        omega
      · rw [hfc]
        refine ⟨?_, hfound⟩
        rw [hpres p.1 hp_notin]
        exact hins.2.2.1
      · intro k hk
        have hk1 : k ∉ l'.map Prod.fst := fun hx => hk (by simp [hx])
        have hk2 : k ≠ p.1 := fun hx => hk (by simp [hx])
        rw [hpres k hk1, hins.2.2.2.1 k hk2]
    · have hins := ht_insert_fresh hG hWF hpos p.1 p.2 hfp
      have hst1 : (insert_name ⟨some t, sv, off⟩ p.1 p.2).2 =
          ⟨some (ht_insert t p.1 p.2).2, sv, off⟩ := by
        rw [insert_name_eq rfl p.1 p.2]
        simp only [hvar, Bool.false_eq_true, if_false]
        rw [if_pos hins.1]
      have hh1 : (ht_insert t p.1 p.2).2.hash = shift_hash := by
        rw [ht_insert_hash]; exact hh
      have hc1 : (ht_insert t p.1 p.2).2.cmp = key_strcmp := by
        rw [ht_insert_cmp]; exact hc
      have hfresh' : ∀ k ∈ l'.map Prod.fst,
          ht_search (ht_insert t p.1 p.2).2 k = none := by
        intro k hk
        have hne : k ≠ p.1 := fun h => hp_notin (h ▸ hk)
        rw [hins.2.2.2.1 k hne]
        exact hfresh k (by simp [hk])
      obtain ⟨t', htab, hsav, hoff, hh', hc', hWF', hpos', hfound, hpres⟩ :=
        ih (ht_insert t p.1 p.2).2 off sv hh1 hc1 hins.2.1
          (ht_insert_size_pos hpos p.1 p.2) hfresh' hnd'
      have hfc : (p :: l').filter (fun q => IS_VARIABLE q.2.type) =
          l'.filter (fun q => IS_VARIABLE q.2.type) := by
        simp [List.filter_cons, hvar]
      rw [hrun, hst1]
      refine ⟨t', htab, hsav, ?_, hh', hc', hWF', hpos', ?_, ?_⟩
      · rw [hoff, hfc]
      · rw [hfc]
        exact hfound
      · intro k hk
        have hk1 : k ∉ l'.map Prod.fst := fun hx => hk (by simp [hx])
        have hk2 : k ≠ p.1 := fun hx => hk (by simp [hx])
        rw [hpres k hk1, hins.2.2.2.1 k hk2]

/-- C3: starting from a freshly initialized symbol table (offset counter at
1), inserting distinct names with insert_name assigns the variable
(non-callable) names the offsets 1..n in insertion order, callables inserted
in between consume no offset slot, and get_variables_width returns n + 1
afterward. -/
theorem c3_offsets_in_order (l : List (String × IDPropt))
    (hnd : (l.map Prod.fst).Nodup) :
    get_variables_width (runInserts init_symbol_table l) =
      (l.filter (fun q => IS_VARIABLE q.2.type)).length + 1 ∧
    ∀ i, (hi : i < (l.filter (fun q => IS_VARIABLE q.2.type)).length) →
      find_name (runInserts init_symbol_table l)
          ((l.filter (fun q => IS_VARIABLE q.2.type)).get ⟨i, hi⟩).1 =
        some { ((l.filter (fun q => IS_VARIABLE q.2.type)).get ⟨i, hi⟩).2
               with offset := i + 1 } := by
  obtain ⟨t', htab, hsav, hoff, hh', hc', hWF', hpos', hfound, hpres⟩ :=
    runInserts_spec l (ht_init (3/4) shift_hash key_strcmp) 1 none rfl rfl
      (ht_init_WF (3/4) shift_hash key_strcmp)
      (by show (0 : Nat) < 13; norm_num)
      (fun k _ => ht_init_search (3/4) shift_hash key_strcmp k) hnd
  have hsame : runInserts init_symbol_table l =
      runInserts ⟨some (ht_init (3/4) shift_hash key_strcmp), none, 1⟩ l :=
    rfl
  constructor
  · show (runInserts init_symbol_table l).curr_offset = _
    rw [hsame, hoff]
    omega
  · intro i hi
    rw [hsame, find_name_no_saved htab hsav]
    have hg := offsetsFrom_get _ 1 t' hfound i hi
    rw [hg, Nat.add_comm 1 i]

theorem c3_witness :
    get_variables_width (runInserts init_symbol_table
      [("a", ⟨ValType.scalarInt, 0⟩), ("g", ⟨ValType.callable, 0⟩),
       ("b", ⟨ValType.scalarBool, 0⟩)]) =
      ([("a", (⟨ValType.scalarInt, 0⟩ : IDPropt)),
        ("g", ⟨ValType.callable, 0⟩),
        ("b", ⟨ValType.scalarBool, 0⟩)].filter
          (fun q => IS_VARIABLE q.2.type)).length + 1 ∧
    ∀ i, (hi : i < ([("a", (⟨ValType.scalarInt, 0⟩ : IDPropt)),
        ("g", ⟨ValType.callable, 0⟩),
        ("b", ⟨ValType.scalarBool, 0⟩)].filter
          (fun q => IS_VARIABLE q.2.type)).length) →
      find_name (runInserts init_symbol_table
          [("a", ⟨ValType.scalarInt, 0⟩), ("g", ⟨ValType.callable, 0⟩),
           ("b", ⟨ValType.scalarBool, 0⟩)])
          (([("a", (⟨ValType.scalarInt, 0⟩ : IDPropt)),
             ("g", ⟨ValType.callable, 0⟩),
             ("b", ⟨ValType.scalarBool, 0⟩)].filter
              (fun q => IS_VARIABLE q.2.type)).get ⟨i, hi⟩).1 =
        some { (([("a", (⟨ValType.scalarInt, 0⟩ : IDPropt)),
                  ("g", ⟨ValType.callable, 0⟩),
                  ("b", ⟨ValType.scalarBool, 0⟩)].filter
                   (fun q => IS_VARIABLE q.2.type)).get ⟨i, hi⟩).2
               with offset := i + 1 } :=
  c3_offsets_in_order
    [("a", ⟨ValType.scalarInt, 0⟩), ("g", ⟨ValType.callable, 0⟩),
     ("b", ⟨ValType.scalarBool, 0⟩)] (by decide)

/-- Source position (line, column) as used by the scanner. -/
structure SourcePos where
  line : Nat
  col : Nat
deriving DecidableEq

/-- Token types of AMPL-2023 as used by scanner.c (the numeric values of the
token.h enum are never inspected by the scanner). -/
inductive TokenType where
  | TOK_EOF | TOK_ID | TOK_NUM | TOK_STR
  | TOK_AND | TOK_ARRAY | TOK_BOOL | TOK_CHILLAX | TOK_ELIF | TOK_ELSE
  | TOK_END | TOK_FALSE | TOK_IF | TOK_INPUT | TOK_INT | TOK_LET | TOK_MAIN
  | TOK_NOT | TOK_OR | TOK_OUTPUT | TOK_PROGRAM | TOK_REM | TOK_RETURN
  | TOK_TRUE | TOK_WHILE
  | TOK_EQ | TOK_PLUS | TOK_MUL | TOK_COLON | TOK_COMMA | TOK_DOTDOT
  | TOK_LBRACK | TOK_RBRACK | TOK_LPAREN | TOK_RPAREN | TOK_SEMICOLON
  | TOK_GE | TOK_GT | TOK_LE | TOK_LT | TOK_NE | TOK_DIV | TOK_ARROW
  | TOK_MINUS
deriving DecidableEq

/-- Token record: the type together with the payload fields the scanner
writes (value for numbers, string for string literals and operators, lexeme
for words); fields a given token kind does not use are left empty. -/
structure Token where
  type : TokenType
  value : Nat
  string : List Int
  lexeme : List Int
deriving DecidableEq

/-- Scanner state from scanner.c: the unread input bytes, the one-character
lookahead ch (EOF modelled as -1, bytes as their codes), the current column
and line counters, and the two position globals posit and position. -/
structure ScanState where
  input : List Nat
  ch : Int
  cn : Nat
  ln : Nat
  posit : SourcePos
  position : SourcePos
deriving DecidableEq

/-- next_char from scanner.c: read the next character (EOF when the input is
exhausted); a newline records the position in posit, advances the line and
resets the column, every other read (EOF included) advances the column. -/
def next_char (s : ScanState) : ScanState :=
  match s.input with
  | [] => { s with ch := -1, cn := s.cn + 1 }
  | c :: rest =>
    if c = 10 then
      { s with
        input := rest
        ch := 10
        posit := ⟨s.ln, s.cn⟩
        ln := s.ln + 1
        cn := 0 }
    else
      { s with
        input := rest
        ch := (c : Int)
        cn := s.cn + 1 }

/-- C isspace on the scanner's character values. -/
def isspaceI (c : Int) : Bool :=
  decide (c = 32 ∨ c = 9 ∨ c = 10 ∨ c = 11 ∨ c = 12 ∨ c = 13)

/-- C isdigit on the scanner's character values. -/
def isdigitI (c : Int) : Bool := decide (48 ≤ c ∧ c ≤ 57)

/-- C isalpha on the scanner's character values. -/
def isalphaI (c : Int) : Bool :=
  decide ((65 ≤ c ∧ c ≤ 90) ∨ (97 ≤ c ∧ c ≤ 122))

/-- C isascii on the scanner's character values. -/
def isasciiI (c : Int) : Bool := decide (0 ≤ c ∧ c ≤ 127)

/-- Whitespace test on byte codes, the Nat counterpart of isspaceI. -/
def isWsN (c : Nat) : Bool :=
  decide (c = 32 ∨ c = 9 ∨ c = 10 ∨ c = 11 ∨ c = 12 ∨ c = 13)

theorem next_char_input_le (s : ScanState) :
    (next_char s).input.length ≤ s.input.length := by
  unfold next_char
  cases s.input with
  | nil => simp
  | cons c rest =>
    by_cases h10 : c = 10 <;> simp [h10]

theorem next_char_eof_input (s : ScanState) (h : (next_char s).ch = -1) :
    s.input = [] := by
  unfold next_char at h
  cases hin : s.input with
  | nil => rfl
  | cons c rest =>
    rw [hin] at h
    by_cases h10 : c = 10
    · simp [h10] at h
    · simp [h10] at h

theorem next_char_input_lt (s : ScanState) (h : (next_char s).ch ≠ -1) :
    (next_char s).input.length < s.input.length := by
  cases hin : s.input with
  | nil =>
    exfalso
    apply h
    unfold next_char
    rw [hin]
  | cons c rest =>
    have hthis : (next_char s).input = rest := by
      unfold next_char
      rw [hin]
      by_cases h10 : c = 10 <;> simp [h10]
    simp [hthis, hin]

/-- Fatal lexical errors reported through leprintf.  Modelled from the spec:
error.c is not among the sources; the spec says the error reporter
terminates the compilation, except that the number-too-large and
identifier-too-long reports return and the scanner continues with the
truncated value (those two paths are therefore not errors in this model).
The extra outOfFuel result bounds the comment recursion of the fueled
interpreter and is never produced on comment-free input. -/
inductive ScanErr where
  | illegalChar | nonPrintable | illegalEscape | stringNotClosed
  | commentNotClosed | outOfFuel
deriving DecidableEq

/-- INT_MAX of the 32-bit target int. -/
def INT_MAX : Nat := 2147483647

/-- MAX_ID_LEN from token.h.  Modelled from the spec: the header is not under
src and the spec only says identifiers are bounded by a maximum length; the
claims do not depend on the value, fixed here at 32. -/
def MAX_ID_LEN : Nat := 32

/-- Loop of process_number from scanner.c: v_updated = 10 * value + d with
overflow check against INT_MAX; on overflow, leprintf reports number too
large (and returns, per the spec) and the loop breaks keeping the previous
value without consuming; otherwise the value is committed, the next
character read, and the loop continues while digits follow. -/
def pnLoop (value d : Nat) (s : ScanState) : Nat × ScanState :=
  let v_updated := 10 * value + d
  if v_updated > INT_MAX then (value, s)
  else
    let s1 := next_char s
    if h : isdigitI s1.ch = true then pnLoop v_updated (s1.ch.toNat - 48) s1
    else (v_updated, s1)
termination_by s.input.length
decreasing_by
  have hne : (next_char s).ch ≠ -1 := by
    intro he
    rw [he] at h
    exact absurd h (by decide)
  exact next_char_input_lt s hne

/-- process_number from scanner.c: token gets TOK_NUM and the accumulated
value; only the type and value fields are written. -/
def process_number (s : ScanState) : Token × ScanState :=
  let r := pnLoop 0 (s.ch.toNat - 48) s
  (⟨TokenType.TOK_NUM, r.1, [], []⟩, r.2)

/-- Loop of process_string from scanner.c.  While the current character is
not a closing quote: a non-printable character or a raw newline is a fatal
error; a backslash is stored in the buffer and the next character must be
one of n, t, a quote or a backslash (the case arms only reassign ch to the
character it already holds, so no normalization happens) or the escape is
illegal; then the current character is stored, the next one is read, and
end-of-input means the string was not closed, otherwise the position is
updated and the loop continues. -/
def psLoop (buf : List Int) (s : ScanState) :
    Except ScanErr (List Int × ScanState) :=
  if s.ch = 34 then Except.ok (buf, s)
  else if (isasciiI s.ch = false ∨ s.ch < 32) ∧ s.ch ≠ 10 ∧ s.ch ≠ -1 then
    Except.error ScanErr.nonPrintable
  else if s.ch = 10 then Except.error ScanErr.nonPrintable
  else if s.ch = 92 then
    let s1 := next_char s
    if s1.ch = 110 ∨ s1.ch = 116 ∨ s1.ch = 34 ∨ s1.ch = 92 then
      let buf2 := buf ++ [92, s1.ch]
      let s2 := next_char s1
      if h : s2.ch = -1 then Except.error ScanErr.stringNotClosed
      else psLoop buf2 { s2 with position := ⟨s2.ln, s2.cn⟩ }
    else Except.error ScanErr.illegalEscape
  else
    let buf2 := buf ++ [s.ch]
    let s2 := next_char s
    if h : s2.ch = -1 then Except.error ScanErr.stringNotClosed
    else psLoop buf2 { s2 with position := ⟨s2.ln, s2.cn⟩ }
termination_by s.input.length
decreasing_by
  · show (next_char (next_char s)).input.length < s.input.length
    have h1 := next_char_input_lt (next_char s) h
    have h2 := next_char_input_le s
    omega
  · show (next_char s).input.length < s.input.length
    exact next_char_input_lt s h

/-- process_string from scanner.c: run the loop with an empty buffer, set the
token to TOK_STR with the collected text, and consume the closing quote. -/
def process_string (s : ScanState) : Except ScanErr (Token × ScanState) :=
  match psLoop [] s with
  | Except.error e => Except.error e
  | Except.ok r =>
    Except.ok (⟨TokenType.TOK_STR, 0, r.1, []⟩, next_char r.2)

/-- Loop of process_word from scanner.c (a do-while): before each store, an
identifier longer than MAX_ID_LEN reports identifier too long (leprintf
returns here per the spec) and breaks; otherwise the character is stored and
the loop continues while a digit, letter or underscore follows. -/
def pwLoop (lexeme : List Int) (x : Nat) (s : ScanState) :
    List Int × ScanState :=
  if x ≥ MAX_ID_LEN then (lexeme, s)
  else
    let lexeme1 := lexeme ++ [s.ch]
    let s1 := next_char s
    if h : (48 ≤ s1.ch ∧ s1.ch ≤ 57) ∨ isalphaI s1.ch = true ∨ s1.ch = 95
    then pwLoop lexeme1 (x + 1) s1
    else (lexeme1, s1)
termination_by s.input.length
decreasing_by
  have hne : (next_char s).ch ≠ -1 := by
    intro he
    rw [he] at h
    rcases h with h | h | h
    · omega
    · exact absurd h (by decide)
    · omega
  exact next_char_input_lt s hne

/-- Byte list of a string literal, for the reserved-word table and the
operator spellings. -/
def strBytes (w : String) : List Int := w.data.map (fun c => (c.toNat : Int))

/-- Reserved-word table of scanner.c, sorted, with the associated token
types. -/
def reserved : List (List Int × TokenType) :=
  [(strBytes "and", TokenType.TOK_AND),
   (strBytes "array", TokenType.TOK_ARRAY),
   (strBytes "bool", TokenType.TOK_BOOL),
   (strBytes "chillax", TokenType.TOK_CHILLAX),
   (strBytes "elif", TokenType.TOK_ELIF),
   (strBytes "else", TokenType.TOK_ELSE),
   (strBytes "end", TokenType.TOK_END),
   (strBytes "false", TokenType.TOK_FALSE),
   (strBytes "if", TokenType.TOK_IF),
   (strBytes "input", TokenType.TOK_INPUT),
   (strBytes "int", TokenType.TOK_INT),
   (strBytes "let", TokenType.TOK_LET),
   (strBytes "main", TokenType.TOK_MAIN),
   (strBytes "not", TokenType.TOK_NOT),
   (strBytes "or", TokenType.TOK_OR),
   (strBytes "output", TokenType.TOK_OUTPUT),
   (strBytes "program", TokenType.TOK_PROGRAM),
   (strBytes "rem", TokenType.TOK_REM),
   (strBytes "return", TokenType.TOK_RETURN),
   (strBytes "true", TokenType.TOK_TRUE),
   (strBytes "while", TokenType.TOK_WHILE)]

/-- strcmp over NUL-terminated C strings modelled as byte lists: byte-wise
lexicographic comparison, the terminating NUL comparing below every other
character (only the sign of the result is used). -/
def strcmpL : List Int → List Int → Int
  | [], [] => 0
  | [], _ :: _ => -1
  | _ :: _, [] => 1
  | a :: as, b :: bs =>
    if a < b then -1 else if b < a then 1 else strcmpL as bs

/-- Binary-search loop of process_word over the reserved table: while lowest
is below highest, compare the lexeme against the middle entry; on a match
return its token type, otherwise narrow to the half that can contain it. -/
def bsearchLoop (lexeme : List Int) (lowest highest : Nat) :
    Option TokenType :=
  if hlt : lowest < highest then
    let middle := lowest + (highest - lowest) / 2
    let entry := reserved.getD middle ([], TokenType.TOK_EOF)
    let cmp := strcmpL lexeme entry.1
    if cmp = 0 then some entry.2
    else if cmp < 0 then bsearchLoop lexeme lowest middle
    else bsearchLoop lexeme (middle + 1) highest
  else none
termination_by highest - lowest
decreasing_by
  · have := Nat.div_lt_self (by omega : 0 < highest - lowest)
      (by norm_num : 1 < 2)
    omega
  · omega

/-- process_word from scanner.c: record the column, collect the maximal run
of letters, digits and underscores (bounded by MAX_ID_LEN), binary-search
the reserved table, and emit either the keyword token or TOK_ID, in both
cases copying the lexeme into the token. -/
def process_word (s : ScanState) : Token × ScanState :=
  let s0 := { s with position := ⟨s.position.line, s.cn⟩ }
  let r := pwLoop [] 0 s0
  match bsearchLoop r.1 0 21 with
  | some tt => (⟨tt, 0, [], r.1⟩, r.2)
  | none => (⟨TokenType.TOK_ID, 0, [], r.1⟩, r.2)

/-- Whitespace-skipping loop at the top of get_token in scanner.c: consume
whitespace; a space, carriage return, vertical tab, newline or form feed
that runs into end-of-input restores position from posit, bumps the column
and raises the is_it flag; a tab widens the column by three extra places.
The final fall-through arm is unreachable (isspace holds exactly for the
six characters tested) and returns the state unchanged to keep the model
total. -/
def skipWs (s : ScanState) (is_it : Bool) : ScanState × Bool :=
  if hsp : isspaceI s.ch = true then
    if s.ch = 32 ∨ s.ch = 13 ∨ s.ch = 11 ∨ s.ch = 10 ∨ s.ch = 12 then
      let s1 := next_char s
      if h1 : s1.ch = -1 then
        skipWs { s1 with position := ⟨s1.posit.line, s1.posit.col + 1⟩ } true
      else skipWs s1 is_it
    else if s.ch = 9 then
      let s1 := next_char s
      skipWs { s1 with
               position := ⟨s1.position.line, s1.position.col + 3⟩ } is_it
    else (s, is_it)
  else (s, is_it)
termination_by 2 * s.input.length + (if s.ch = -1 then 0 else 1)
decreasing_by
  · have hch : s.ch ≠ -1 := by
      intro he2
      rw [he2] at hsp
      exact absurd hsp (by decide)
    have h1' : (next_char s).ch = -1 := h1
    have hempty : s.input = [] := next_char_eof_input s h1'
    have hinp : (next_char s).input = [] := by
      unfold next_char
      rw [hempty]
    simp [hinp, h1', hch, hempty] <;> omega
  · have hch : s.ch ≠ -1 := by
      intro he2
      rw [he2] at hsp
      exact absurd hsp (by decide)
    have h1' : (next_char s).ch ≠ -1 := h1
    have hlt := next_char_input_lt s h1'
    simp [hch, h1'] <;> omega
  · have hch : s.ch ≠ -1 := by
      intro he2
      rw [he2] at hsp
      exact absurd hsp (by decide)
    by_cases he : (next_char s).ch = -1
    · have hempty : s.input = [] := next_char_eof_input s he
      have hinp : (next_char s).input = [] := by
        unfold next_char
        rw [hempty]
      simp [hinp, he, hch, hempty] <;> omega
    · have hlt := next_char_input_lt s he
      simp [hch, he] <;> omega

/-- Loop of skip_comment from scanner.c, with fuel bounding the combined
iteration and nesting (always sufficient on inputs scanned with fuel at
least the input length): end-of-input is an unterminated comment; an inner
open brace recursively skips the nested comment and advances past its
closing brace; a closing brace returns without consuming it; anything else
is discarded. -/
def scLoop : Nat → ScanState → Except ScanErr ScanState
  | 0, _ => Except.error ScanErr.outOfFuel
  | fuel + 1, s =>
    if s.ch = -1 then Except.error ScanErr.commentNotClosed
    else if s.ch = 123 then
      match scLoop fuel (next_char s) with
      | Except.error e => Except.error e
      | Except.ok s1 => scLoop fuel (next_char s1)
    else if s.ch = 125 then Except.ok s
    else scLoop fuel (next_char s)

/-- skip_comment from scanner.c: consume the character after the opening
brace and run the comment loop. -/
def skip_comment (fuel : Nat) (s : ScanState) : Except ScanErr ScanState :=
  scLoop fuel (next_char s)

/-- get_token from scanner.c: skip whitespace (recording the token start
position unless the skip ran into end-of-input), then dispatch on the first
character: words, numbers, strings, comments (skipped, then get_token runs
again for the next real token, consuming fuel), the fixed operator and
punctuation tokens with their one-character lookahead variants, end-of-input,
or an illegal character.  The fuel only limits comment recursion. -/
def get_token : Nat → ScanState → Except ScanErr (Token × ScanState)
  | 0, _ => Except.error ScanErr.outOfFuel
  | fuel + 1, s =>
    let ws := skipWs s false
    let s2 := if ws.2 = false then
        { ws.1 with position := ⟨ws.1.ln, ws.1.cn⟩ }
      else ws.1
    if s2.ch ≠ -1 then
      if isalphaI s2.ch = true ∨ s2.ch = 95 then
        Except.ok (process_word s2)
      else if isdigitI s2.ch = true then
        Except.ok (process_number s2)
      else if s2.ch = 34 then
        let s3 := { s2 with position := ⟨s2.position.line, s2.cn⟩ }
        match process_string (next_char s3) with
        | Except.error e => Except.error e
        | Except.ok r => Except.ok (r.1, { r.2 with position := s3.position })
      else if s2.ch = 123 then
        match skip_comment fuel s2 with
        | Except.error e => Except.error e
        | Except.ok s3 => get_token fuel (next_char s3)
      else if s2.ch = 61 then
        Except.ok (⟨TokenType.TOK_EQ, 0, strBytes "=", []⟩, next_char s2)
      else if s2.ch = 43 then
        Except.ok (⟨TokenType.TOK_PLUS, 0, strBytes "+", []⟩, next_char s2)
      else if s2.ch = 42 then
        Except.ok (⟨TokenType.TOK_MUL, 0, strBytes "+", []⟩, next_char s2)
      else if s2.ch = 58 then
        Except.ok (⟨TokenType.TOK_COLON, 0, strBytes ":", []⟩, next_char s2)
      else if s2.ch = 44 then
        Except.ok (⟨TokenType.TOK_COMMA, 0, strBytes ",", []⟩, next_char s2)
      else if s2.ch = 46 then
        let s3 := next_char s2
        if s3.ch = 46 then
          Except.ok (⟨TokenType.TOK_DOTDOT, 0, strBytes "..", []⟩,
            next_char s3)
        else Except.error ScanErr.illegalChar
      else if s2.ch = 91 then
        Except.ok (⟨TokenType.TOK_LBRACK, 0, strBytes "[", []⟩, next_char s2)
      else if s2.ch = 93 then
        Except.ok (⟨TokenType.TOK_RBRACK, 0, strBytes "]", []⟩, next_char s2)
      else if s2.ch = 40 then
        Except.ok (⟨TokenType.TOK_LPAREN, 0, strBytes "(", []⟩, next_char s2)
      else if s2.ch = 41 then
        Except.ok (⟨TokenType.TOK_RPAREN, 0, strBytes ")", []⟩, next_char s2)
      else if s2.ch = 59 then
        Except.ok (⟨TokenType.TOK_SEMICOLON, 0, strBytes ";", []⟩,
          next_char s2)
      else if s2.ch = 62 then
        let s3 := next_char s2
        if s3.ch = 61 then
          Except.ok (⟨TokenType.TOK_GE, 0, strBytes ">=", []⟩, next_char s3)
        else Except.ok (⟨TokenType.TOK_GT, 0, strBytes ">", []⟩, s3)
      else if s2.ch = 60 then
        let s3 := next_char s2
        if s3.ch = 61 then
          Except.ok (⟨TokenType.TOK_LE, 0, strBytes "<=", []⟩, next_char s3)
        else Except.ok (⟨TokenType.TOK_LT, 0, strBytes "<", []⟩, s3)
      else if s2.ch = 47 then
        let s3 := next_char s2
        if s3.ch = 61 then
          Except.ok (⟨TokenType.TOK_NE, 0, strBytes "/=", []⟩, next_char s3)
        else Except.ok (⟨TokenType.TOK_DIV, 0, strBytes "/", []⟩, s3)
      else if s2.ch = 45 then
        let s3 := next_char s2
        if s3.ch = 62 then
          Except.ok (⟨TokenType.TOK_ARROW, 0, strBytes "->", []⟩,
            next_char s3)
        else Except.ok (⟨TokenType.TOK_MINUS, 0, strBytes "-", []⟩, s3)
      else Except.error ScanErr.illegalChar
    else Except.ok (⟨TokenType.TOK_EOF, 0, [], []⟩, s2)

/-- init_scanner from scanner.c: line 1, column 0, the posit global
zero-initialized, and the first character read. -/
def init_scanner (input : List Nat) : ScanState :=
  next_char
    { input := input, ch := 0, cn := 0, ln := 1,
      posit := ⟨0, 0⟩, position := ⟨1, 0⟩ }

/-- C2: Counterexample.  Scanning the input "ab\"c" does produce exactly one
string token, but its payload is NOT the four normalized characters
ab"c = [97, 98, 34, 99]: the scanner stores the backslash before inspecting
the escape, and the escape switch arms only reassign ch to the value it
already holds, so the stored payload keeps the two-character sequence
backslash-quote. -/
theorem c2_escape_counterexample :
    ∃ r, get_token 1 (init_scanner [34, 97, 98, 92, 34, 99, 34]) =
        Except.ok r ∧
      r.1.type = TokenType.TOK_STR ∧ r.1.string ≠ [97, 98, 34, 99] := by
  refine ⟨(⟨TokenType.TOK_STR, 0, [97, 98, 92, 34, 99], []⟩,
      ⟨[], -1, 8, 1, ⟨0, 0⟩, ⟨1, 1⟩⟩), ?_, rfl, by decide⟩
  simp [get_token, init_scanner, next_char, skipWs, isspaceI, isalphaI,
    isdigitI, isasciiI, process_string, psLoop]

/-- C2 (amended): Scanning the input "ab\"c" produces exactly one string
token whose payload is the five characters ab\"c — the recognized escapes
are accepted but stored verbatim as their two-character source sequences,
not normalized — and the scanner is positioned at end-of-input, so the
following get_token call produces the end-of-input token. -/
theorem c2_escape_amended :
    ∃ s1 s2,
      get_token 1 (init_scanner [34, 97, 98, 92, 34, 99, 34]) =
        Except.ok (⟨TokenType.TOK_STR, 0, [97, 98, 92, 34, 99], []⟩, s1) ∧
      s1.ch = -1 ∧ s1.input = [] ∧
      get_token 1 s1 =
        Except.ok (⟨TokenType.TOK_EOF, 0, [], []⟩, s2) := by
  refine ⟨⟨[], -1, 8, 1, ⟨0, 0⟩, ⟨1, 1⟩⟩,
    ⟨[], -1, 8, 1, ⟨0, 0⟩, ⟨1, 8⟩⟩, ?_, rfl, rfl, ?_⟩
  · simp [get_token, init_scanner, next_char, skipWs, isspaceI, isalphaI,
      isdigitI, isasciiI, process_string, psLoop]
  · simp [get_token, next_char, skipWs, isspaceI, isalphaI, isdigitI,
      isasciiI]

/-- C isdigit on byte codes, the Nat counterpart of isdigitI. -/
def isDigitN (c : Nat) : Bool := decide (48 ≤ c ∧ c ≤ 57)

/-- The value of a run of decimal digit bytes accumulated left to right onto
acc, exactly as the loop of process_number accumulates it. -/
def valAcc (acc : Nat) (ds : List Nat) : Nat :=
  ds.foldl (fun a d => 10 * a + (d - 48)) acc

/-- The numeric value of a decimal digit-byte literal. -/
def digitsVal (ds : List Nat) : Nat := valAcc 0 ds

/-- The scanner state s holds the byte stream cs: the lookahead ch is the
first byte of cs (or end-of-input when cs is empty) and the unread input is
the rest. -/
def feeds (s : ScanState) (cs : List Nat) : Prop :=
  match cs with
  | [] => s.ch = -1 ∧ s.input = []
  | c :: l => s.ch = (c : Int) ∧ s.input = l

/-- The first byte of the list, if any, is not whitespace. -/
def headNotWs : List Nat → Prop
  | [] => True
  | c :: _ => isWsN c = false

/-- The first byte of the list, if any, is not a digit. -/
def headNotDigit : List Nat → Prop
  | [] => True
  | c :: _ => isDigitN c = false

theorem isspaceI_natCast (c : Nat) : isspaceI (c : Int) = isWsN c := by
  unfold isspaceI isWsN
  rw [decide_eq_decide]
  omega

theorem isdigitI_natCast (c : Nat) : isdigitI (c : Int) = isDigitN c := by
  unfold isdigitI isDigitN
  rw [decide_eq_decide]
  omega

theorem feeds_ne_eof {s : ScanState} {c : Nat} {l : List Nat}
    (h : feeds s (c :: l)) : s.ch ≠ -1 := by
  obtain ⟨hch, _⟩ := h
  rw [hch]
  omega

theorem feeds_next {s : ScanState} {c : Nat} {l : List Nat}
    (h : feeds s (c :: l)) : feeds (next_char s) l := by
  obtain ⟨hch, hin⟩ := h
  unfold next_char
  rw [hin]
  cases l with
  | nil => exact ⟨rfl, rfl⟩
  | cons c2 l2 =>
    by_cases h10 : c2 = 10
    · subst h10
      simp [feeds]
    · simp [h10, feeds]

theorem feeds_init (l : List Nat) : feeds (init_scanner l) l := by
  unfold init_scanner next_char
  cases l with
  | nil => exact ⟨rfl, rfl⟩
  | cons c l2 =>
    simp only
    cases l2 with
    | nil =>
      by_cases h10 : c = 10
      · subst h10
        simp [feeds]
      · simp [h10, feeds]
    | cons c2 l3 =>
      by_cases h10 : c = 10
      · subst h10
        simp [feeds]
      · simp [h10, feeds]

theorem feeds_congr {s t : ScanState} (hch : t.ch = s.ch)
    (hin : t.input = s.input) {cs : List Nat} (h : feeds s cs) :
    feeds t cs := by
  cases cs with
  | nil => exact ⟨by rw [hch]; exact h.1, by rw [hin]; exact h.2⟩
  | cons c l => exact ⟨by rw [hch]; exact h.1, by rw [hin]; exact h.2⟩

theorem skipWs_run : ∀ (ws : List Nat) (s : ScanState) (b : Bool)
    (rest : List Nat), (∀ c ∈ ws, isWsN c = true) → feeds s (ws ++ rest) →
    headNotWs rest → feeds (skipWs s b).1 rest := by
  intro ws
  induction ws with
  | nil =>
    intro s b rest _ hf hh
    have hsp : isspaceI s.ch = false := by
      cases rest with
      | nil =>
        obtain ⟨hch, _⟩ := hf
        rw [hch]
        decide
      | cons c l =>
        obtain ⟨hch, _⟩ := hf
        rw [hch, isspaceI_natCast]
        exact hh
    rw [skipWs, dif_neg (by rw [hsp]; exact Bool.false_ne_true)]
    exact hf
  | cons w ws2 ih =>
    intro s b rest hws hf hh
    have hw : isWsN w = true := hws w (by simp)
    obtain ⟨hch, hin⟩ := hf
    have hsp : isspaceI s.ch = true := by
      rw [hch, isspaceI_natCast]
      exact hw
    have hf' : feeds (next_char s) (ws2 ++ rest) := feeds_next ⟨hch, hin⟩
    have hws2 : ∀ c ∈ ws2, isWsN c = true := by
      intro c hc
      exact hws c (by simp [hc])
    rw [skipWs, dif_pos hsp]
    by_cases h5 : s.ch = 32 ∨ s.ch = 13 ∨ s.ch = 11 ∨ s.ch = 10 ∨ s.ch = 12
    · rw [if_pos h5]
      by_cases h1 : (next_char s).ch = -1
      · rw [dif_pos h1]
        have hnil : ws2 ++ rest = [] := by
          cases hlist : ws2 ++ rest with
          | nil => rfl
          | cons c l =>
            rw [hlist] at hf'
            exact absurd h1 (feeds_ne_eof hf')
        have hw2 : ws2 = [] := List.append_eq_nil.mp hnil |>.1
        have hr : rest = [] := List.append_eq_nil.mp hnil |>.2
        subst hw2
        subst hr
        rw [hnil] at hf'
        exact ih _ true [] (by simp) (feeds_congr rfl rfl hf') trivial
      · rw [dif_neg h1]
        exact ih _ b rest hws2 hf' hh
    · rw [if_neg h5]
      have h9 : s.ch = 9 := by
        rw [hch] at h5 ⊢
        unfold isWsN at hw
        simp at hw
        omega
      rw [if_pos h9]
      exact ih _ b rest hws2 (feeds_congr rfl rfl hf') hh

theorem valAcc_cons (a c : Nat) (ds : List Nat) :
    valAcc a (c :: ds) = valAcc (10 * a + (c - 48)) ds := rfl

theorem valAcc_ge : ∀ (ds : List Nat) (a : Nat), a ≤ valAcc a ds := by
  intro ds
  induction ds with
  | nil => intro a; exact Nat.le_refl a
  | cons c ds2 ih =>
    intro a
    rw [valAcc_cons]
    calc a ≤ 10 * a + (c - 48) := by omega
      _ ≤ valAcc (10 * a + (c - 48)) ds2 := ih _

theorem pnLoop_eq (value d : Nat) (s : ScanState) :
    pnLoop value d s =
      if 10 * value + d > INT_MAX then (value, s)
      else if h : isdigitI (next_char s).ch = true
        then pnLoop (10 * value + d) ((next_char s).ch.toNat - 48)
          (next_char s)
        else (10 * value + d, next_char s) := by
  rw [pnLoop]

theorem pnLoop_run : ∀ (ds : List Nat) (c value : Nat) (s : ScanState)
    (rest : List Nat), isDigitN c = true →
    (∀ x ∈ ds, isDigitN x = true) → feeds s ((c :: ds) ++ rest) →
    headNotDigit rest → valAcc value (c :: ds) ≤ INT_MAX →
    ∃ s', pnLoop value (c - 48) s = (valAcc value (c :: ds), s') ∧
      feeds s' rest := by
  intro ds
  induction ds with
  | nil =>
    intro c value s rest hc _ hf hh hv
    have hknot : ¬ 10 * value + (c - 48) > INT_MAX := by
      have : valAcc value [c] = 10 * value + (c - 48) := rfl
      omega
    have hf' : feeds (next_char s) rest := feeds_next hf
    have hdig : ¬ isdigitI (next_char s).ch = true := by
      cases rest with
      | nil =>
        rw [hf'.1]
        decide
      | cons r l =>
        rw [hf'.1, isdigitI_natCast, hh]
        exact Bool.false_ne_true
    refine ⟨next_char s, ?_, hf'⟩
    rw [pnLoop_eq, if_neg hknot, dif_neg hdig]
    rfl
  | cons c2 ds2 ih =>
    intro c value s rest hc hds hf hh hv
    have hstep : valAcc value (c :: c2 :: ds2) =
        valAcc (10 * value + (c - 48)) (c2 :: ds2) := rfl
    have hknot : ¬ 10 * value + (c - 48) > INT_MAX := by
      have hge := valAcc_ge (c2 :: ds2) (10 * value + (c - 48))
      omega
    have hf' : feeds (next_char s) ((c2 :: ds2) ++ rest) := feeds_next hf
    have hch2 : (next_char s).ch = (c2 : Int) := hf'.1
    have hdig : isdigitI (next_char s).ch = true := by
      rw [hch2, isdigitI_natCast]
      exact hds c2 (by simp)
    have htn : (next_char s).ch.toNat = c2 := by
      rw [hch2]
      exact Int.toNat_natCast c2
    obtain ⟨s', heq, hfs'⟩ := ih c2 (10 * value + (c - 48)) (next_char s)
      rest (hds c2 (by simp)) (fun x hx => hds x (by simp [hx])) hf' hh
      (by rw [← hstep]; exact hv)
    refine ⟨s', ?_, hfs'⟩
    rw [pnLoop_eq, if_neg hknot, dif_pos hdig, htn, heq, hstep]
theorem get_token_eof_run (s : ScanState) (ws : List Nat)
    (hws : ∀ c ∈ ws, isWsN c = true) (hf : feeds s ws) :
    ∃ s2, get_token 1 s = Except.ok (⟨TokenType.TOK_EOF, 0, [], []⟩, s2) := by
  have hrun := skipWs_run ws s false [] hws (by simpa using hf) trivial
  have hch : (skipWs s false).1.ch = -1 := hrun.1
  cases hb : (skipWs s false).2 with
  | false =>
    refine ⟨{ (skipWs s false).1 with position := ⟨(skipWs s false).1.ln, (skipWs s false).1.cn⟩ }, ?_⟩
    simp only [get_token, hb, hch]
    simp
  | true =>
    refine ⟨(skipWs s false).1, ?_⟩
    simp only [get_token, hb, hch]
    simp
    intro h
    exact absurd hch h
theorem process_number_run (s : ScanState) (d : Nat) (ds rest : List Nat)
    (hd : isDigitN d = true) (hds : ∀ x ∈ ds, isDigitN x = true)
    (hh : headNotDigit rest) (hf : feeds s ((d :: ds) ++ rest))
    (hv : valAcc 0 (d :: ds) ≤ INT_MAX) :
    ∃ s', process_number s =
        (⟨TokenType.TOK_NUM, valAcc 0 (d :: ds), [], []⟩, s') ∧
      feeds s' rest := by
  obtain ⟨s', heq, hfs⟩ := pnLoop_run ds d 0 s rest hd hds hf hh hv
  have htn : s.ch.toNat = d := by
    rw [hf.1]
    exact Int.toNat_natCast d
  refine ⟨s', ?_, hfs⟩
  simp only [process_number, htn, heq]

theorem get_token_num_run (s : ScanState) (ws1 : List Nat) (d : Nat)
    (ds rest : List Nat) (hws1 : ∀ c ∈ ws1, isWsN c = true)
    (hd : isDigitN d = true) (hds : ∀ x ∈ ds, isDigitN x = true)
    (hh : headNotDigit rest) (hf : feeds s (ws1 ++ (d :: ds) ++ rest))
    (hv : valAcc 0 (d :: ds) ≤ INT_MAX) :
    ∃ s1, get_token 1 s =
        Except.ok (⟨TokenType.TOK_NUM, valAcc 0 (d :: ds), [], []⟩, s1) ∧
      feeds s1 rest := by
  have hd' : 48 ≤ d ∧ d ≤ 57 := by
    unfold isDigitN at hd
    exact of_decide_eq_true hd
  have hhw : headNotWs ((d :: ds) ++ rest) := by
    show isWsN d = false
    unfold isWsN
    apply decide_eq_false
    omega
  have hrun := skipWs_run ws1 s false ((d :: ds) ++ rest) hws1
    (by rw [← List.append_assoc]; exact hf) hhw
  have htch : (skipWs s false).1.ch = (d : Int) := hrun.1
  have hne : ¬ ((d : Int) = -1) := by omega
  have halpha : isalphaI (d : Int) = false := by
    unfold isalphaI
    apply decide_eq_false
    omega
  have h95 : ¬ ((d : Int) = 95) := by omega
  have hdigI : isdigitI (d : Int) = true := by
    rw [isdigitI_natCast]
    exact hd
  cases hb : (skipWs s false).2 with
  | false =>
    obtain ⟨s', hpn, hfs⟩ := process_number_run
      ⟨(skipWs s false).1.input, (skipWs s false).1.ch, (skipWs s false).1.cn, (skipWs s false).1.ln, (skipWs s false).1.posit, ⟨(skipWs s false).1.ln, (skipWs s false).1.cn⟩⟩
      d ds rest hd hds hh (feeds_congr rfl rfl hrun) hv
    refine ⟨s', ?_, hfs⟩
    rw [htch] at hpn
    simp [get_token, hb, htch, hne, halpha, h95, hdigI, hpn]
  | true =>
    obtain ⟨s', hpn, hfs⟩ := process_number_run (skipWs s false).1 d ds
      rest hd hds hh hrun hv
    refine ⟨s', ?_, hfs⟩
    simp [get_token, hb, htch, hne, halpha, h95, hdigI, hpn]

theorem ws_not_digit {c : Nat} (h : isWsN c = true) : isDigitN c = false := by
  unfold isWsN at h
  unfold isDigitN
  apply decide_eq_false
  have := of_decide_eq_true h
  omega

/-- C8: For every input stream made of whitespace, a single nonempty decimal
digit run of value v with 0 ≤ v ≤ INT_MAX, and trailing whitespace, the
first get_token call produces exactly one TOK_NUM token whose value field
equals v, and the following call produces the end-of-input token TOK_EOF. -/
theorem c8_whitespace_number (ws1 ds ws2 : List Nat)
    (hws1 : ∀ c ∈ ws1, isWsN c = true)
    (hds : ∀ c ∈ ds, isDigitN c = true)
    (hws2 : ∀ c ∈ ws2, isWsN c = true) (hne : ds ≠ [])
    (hv : digitsVal ds ≤ INT_MAX) :
    ∃ t1 s1 s2,
      get_token 1 (init_scanner (ws1 ++ ds ++ ws2)) = Except.ok (t1, s1) ∧
      t1.type = TokenType.TOK_NUM ∧ t1.value = digitsVal ds ∧
      get_token 1 s1 = Except.ok (⟨TokenType.TOK_EOF, 0, [], []⟩, s2) := by
  obtain ⟨d, ds', rfl⟩ : ∃ d ds', ds = d :: ds' := by
    cases ds with
    | nil => exact absurd rfl hne
    | cons d ds' => exact ⟨d, ds', rfl⟩
  have hh : headNotDigit ws2 := by
    cases ws2 with
    | nil => trivial
    | cons c l => exact ws_not_digit (hws2 c (by simp))
  obtain ⟨s1, heq1, hf1⟩ := get_token_num_run (init_scanner _) ws1 d ds'
    ws2 hws1 (hds d (by simp)) (fun x hx => hds x (by simp [hx])) hh
    (feeds_init _) hv
  obtain ⟨s2, heq2⟩ := get_token_eof_run s1 ws2 hws2 hf1
  exact ⟨_, s1, s2, heq1, rfl, rfl, heq2⟩

/-- C8 witness: the concrete stream space, "42", newline: the first token is
TOK_NUM with value 42 and the next is TOK_EOF. -/
theorem c8_witness :
    ∃ t1 s1 s2,
      get_token 1 (init_scanner ([32] ++ [52, 50] ++ [10])) =
        Except.ok (t1, s1) ∧
      t1.type = TokenType.TOK_NUM ∧ t1.value = digitsVal [52, 50] ∧
      get_token 1 s1 = Except.ok (⟨TokenType.TOK_EOF, 0, [], []⟩, s2) :=
  c8_whitespace_number [32] [52, 50] [10] (by decide) (by decide)
    (by decide) (by decide) (by decide)
